import Mathlib

/-!
Verification development for the reverse-dependency traversal engine
(`cross_pro_cg`): a shallow embedding of the Rust sources
`src/krate.rs` and `src/dependency_analyzer.rs` together with theorems
settling the specification claims.

Strings of the Rust code are modelled as `List Char`.  Filesystem and
subprocess effects are modelled by explicit oracle inputs; writes in the
model always succeed.  Whitespace is modelled as the ASCII whitespace
characters recognised by `char::is_whitespace` that can occur in
manifests.
-/

abbrev Str := List Char

/-! ## Manifest patcher (`src/krate.rs`) -/

/-- Whitespace test used by `str::trim` (ASCII fragment). -/
def isWs (c : Char) : Bool :=
  c = ' ' || c = '\t' || c = '\n' || c = '\r'

/-- `str::trim`: remove leading and trailing whitespace. -/
def trim (s : Str) : Str :=
  ((s.dropWhile isWs).reverse.dropWhile isWs).reverse

/-- Strip one trailing carriage return, as Rust's `lines` does on
`\r\n`-terminated lines. -/
def stripTrailingCr (s : Str) : Str :=
  if s.getLast? = some '\r' then s.dropLast else s

/-- Rust `str::lines`: split at `\n`, strip a `\r` that immediately
precedes a `\n`, final line ending optional.  A final line that is not
`\n`-terminated keeps any trailing `\r`. -/
def rustLines (s : Str) : List Str :=
  if s = [] then []
  else
    let parts := s.splitOn '\n'
    if s.getLast? = some '\n' then (parts.dropLast).map stripTrailingCr
    else (parts.dropLast).map stripTrailingCr ++ [parts.getLastD []]

/-- `Vec::join("\n")` on the collected lines. -/
def joinLines (ls : List Str) : Str :=
  List.intercalate ['\n'] ls

/-- The mutable scan state of `patch_dependency_version_in_toml`:
`in_dependencies`, `in_dep_table` and the `modified` flag. -/
structure ScanState where
  inDependencies : Bool
  inDepTable : Bool
  modified : Bool
deriving DecidableEq, Repr

/-- The literal `[dependencies]`. -/
def depHeader : Str := "[dependencies]".data

/-- The literal `[dependencies.<dep_name>]`. -/
def depSubHeader (depName : Str) : Str :=
  "[dependencies.".data ++ depName ++ "]".data

/-- Replacement line for the inline form: `<dep_name> = "=<dep_version>"`. -/
def inlineRepl (depName depVersion : Str) : Str :=
  depName ++ " = \"=".data ++ depVersion ++ "\"".data

/-- Replacement line for the sub-table form: `version = "=<dep_version>"`. -/
def subtableRepl (depVersion : Str) : Str :=
  "version = \"=".data ++ depVersion ++ "\"".data

/-- One iteration of the `for line in toml_content.lines()` loop of
`patch_dependency_version_in_toml`, mirroring the branch structure of
the Rust source: the two `continue` branches entering
`[dependencies]` / `[dependencies.<name>]`, the flag reset on entering
another table, then the inline-dependency and sub-table rewrites. -/
def processLine (depName depVersion : Str) (st : ScanState) (line : Str) :
    ScanState × Str :=
  let trimmed := trim line
  if depHeader.isPrefixOf trimmed && !((depSubHeader depName).isPrefixOf trimmed) then
    ({ st with inDependencies := true, inDepTable := false }, line)
  else if trimmed = depSubHeader depName then
    ({ st with inDependencies := false, inDepTable := true }, line)
  else
    let st1 :=
      if ['['].isPrefixOf trimmed && !(depHeader.isPrefixOf trimmed)
          && !((depSubHeader depName).isPrefixOf trimmed) then
        { st with inDependencies := false, inDepTable := false }
      else st
    if st1.inDependencies &&
        ((depName ++ [' ']).isPrefixOf trimmed || (depName ++ ['=']).isPrefixOf trimmed) then
      ({ st1 with modified := true }, inlineRepl depName depVersion)
    else if st1.inDepTable && "version".data.isPrefixOf trimmed then
      ({ st1 with modified := true }, subtableRepl depVersion)
    else
      (st1, line)

/-- The whole line loop, threading the scan state and collecting the
output lines. -/
def patchLinesGo (depName depVersion : Str) :
    ScanState → List Str → ScanState × List Str
  | st, [] => (st, [])
  | st, l :: ls =>
    let p := processLine depName depVersion st l
    let q := patchLinesGo depName depVersion p.1 ls
    (q.1, p.2 :: q.2)

/-- `patch_dependency_version_in_toml`: the new file content together
with the `modified` flag (which the Rust function only logs). -/
def patch_dependency_version_in_toml (tomlContent depName depVersion : Str) :
    Str × Bool :=
  let r := patchLinesGo depName depVersion ⟨false, false, false⟩ (rustLines tomlContent)
  (joinLines r.2, r.1.modified)

/-- The content produced by one application of the patch. -/
def patchToml (tomlContent depName depVersion : Str) : Str :=
  (patch_dependency_version_in_toml tomlContent depName depVersion).1

/-- `patch_single_dependency`: reads `Cargo.toml` (`none` = read
failure), computes the patched content and writes it back iff it
differs from the original.  The model records the new content and
whether a write happened; writes in the model succeed. -/
def patch_single_dependency (manifest : Option Str) (depName depVersion : Str) :
    Except Unit (Str × Bool) :=
  match manifest with
  | none => .error ()
  | some content =>
    let newContent := patchToml content depName depVersion
    .ok (newContent, newContent ≠ content)

/-- `patch_cargo_toml_with_parent`: captures the prior contents with
`read_to_string(..).ok()`, runs `patch_single_dependency`, and on
success returns the prior contents (`result.map(|_| original_content)`).
The model additionally exposes the written content and write flag. -/
def patch_cargo_toml_with_parent (manifest : Option Str)
    (parentName parentVersion : Str) :
    Except Unit (Option Str × Str × Bool) :=
  match patch_single_dependency manifest parentName parentVersion with
  | .error e => .error e
  | .ok (nc, wrote) => .ok (manifest, nc, wrote)

/-! ## Per-PkgId lock and artifact store (`src/krate.rs`) -/

/-- A crate identity, as in `struct Krate`: name and exact version. -/
structure Krate where
  name : Str
  version : Str
deriving DecidableEq, Repr

/-- The key stored in `GLOBAL_CRATE_LOCK`: `format!("{}-{}", name, version)`. -/
def crateKey (k : Krate) : Str :=
  k.name ++ ['-'] ++ k.version

/-- The waiting loop of `acquire_crate_lock`: up to `remaining` polls
(40 in the source, 500 ms apart, so at most ~20 s), checking before
each sleep whether the extracted directory has appeared.
`dirAppears i` tells whether the directory exists at the `i`-th poll. -/
def pollFrom (dirAppears : Nat → Bool) (i : Nat) : Nat → Bool
  | 0 => false
  | r + 1 => if dirAppears i then true else pollFrom dirAppears (i + 1) r

/-- `acquire_crate_lock`: if the key is already in the in-flight set,
wait (poll loop) for the directory — `ok false` on appearance, error
(`WaitTimeout`) after 40 unsuccessful polls, set unchanged; otherwise
insert the key and report `ok true` (caller must do the work). -/
def acquire_crate_lock (lockSet : List Str) (key : Str)
    (dirAppears : Nat → Bool) : Except Unit Bool × List Str :=
  if key ∈ lockSet then
    (if pollFrom dirAppears 0 40 then .ok false else .error (), lockSet)
  else
    (.ok true, key :: lockSet)

/-- `release_crate_lock`: remove the key from the in-flight set. -/
def release_crate_lock (lockSet : List Str) (key : Str) : List Str :=
  lockSet.erase key

/-- `get_crate_dir_path`, reduced to its lock discipline.
`earlyExists`: the extracted directory already exists before locking;
`dirAppears`: directory observations of the waiting loop;
`workOk`: whether the inserter's download-and-extract work succeeds.
Returns the call's outcome (`ok` = an extracted directory is returned)
and the final in-flight set.  The inserter releases the key whether the
work succeeded or failed. -/
def get_crate_dir_path (k : Krate) (lockSet : List Str) (earlyExists : Bool)
    (dirAppears : Nat → Bool) (workOk : Bool) :
    Except Unit Unit × List Str :=
  if earlyExists then (.ok (), lockSet)
  else
    let key := crateKey k
    match acquire_crate_lock lockSet key dirAppears with
    | (.error e, s) => (.error e, s)
    | (.ok false, s) => (.ok (), s)
    | (.ok true, s) =>
      let result : Except Unit Unit := if workOk then .ok () else .error ()
      (result, release_crate_lock s key)

/-! ## Call analyser (`check_function_call`, `src/dependency_analyzer.rs`) -/

/-- Environment of one `check_function_call` run: outcomes of the
filesystem and subprocess operations the function performs, plus the
crate's source files (which the function never reads).
`callersFileQuiet`/`callersFileAlt` model `target/callers.json` after
the `--quiet` run and after the fallback run without `--quiet`
(`none` = file absent or unreadable); `parseTotal` models JSON parsing
of the file and extraction of `total_callers`. -/
structure CallEnv where
  downloadOk : Bool
  cdOk : Bool
  srcFiles : List Str
  quietSpawnOk : Bool
  quietExitOk : Bool
  targetDirAfterQuiet : Bool
  callersFileQuiet : Option Str
  altSpawnOk : Bool
  altExitOk : Bool
  targetDirAfterAlt : Bool
  callersFileAlt : Option Str
  parseTotal : Str → Option Int

/-- Reading `callers.json` and testing `total_callers > 0`: returns the
file contents when the parsed `total_callers` is positive, `None`
otherwise (absent file, unreadable file, parse failure, or a
non-positive count). -/
def readCallersReport (env : CallEnv) (file : Option Str) : Option Str :=
  match file with
  | none => none
  | some content =>
    match env.parseTotal content with
    | some t => if t > 0 then some content else none
    | none => none

/-- `check_function_call`, mirroring its control flow: download and
extract, enter the crate directory, run `call-cg4rs --find-callers-of
<fp> --json-output --quiet`, inspect `target/callers.json`, and on a
missing `target` directory or missing `callers.json` retry the tool
without `--quiet`.  There is no textual pre-filter over `srcFiles`.
Returns the report contents when `total_callers > 0`, `None` otherwise,
together with the number of `--find-callers-of` invocations attempted
(the diagnostic `which`/`--help` probes and the cleanup commands are
omitted). -/
def check_function_call (env : CallEnv) : Option Str × Nat :=
  if !env.downloadOk then (none, 0)
  else if !env.cdOk then (none, 0)
  else if !env.quietSpawnOk then (none, 1)
  else if !env.quietExitOk then (none, 1)
  else if env.targetDirAfterQuiet then
    match env.callersFileQuiet with
    | some content => (readCallersReport env (some content), 1)
    | none =>
      if !env.altSpawnOk then (none, 2)
      else if !env.altExitOk then (none, 2)
      else (readCallersReport env env.callersFileAlt, 2)
  else
    if !env.altSpawnOk then (none, 2)
    else if !env.altExitOk then (none, 2)
    else if env.targetDirAfterAlt then (readCallersReport env env.callersFileAlt, 2)
    else (none, 2)

/-- Spec-side (claim C4 vocabulary): the last path component of a
`::`-separated function path — the bare identifier. -/
def specLastIdent (functionPath : Str) : Str :=
  ((functionPath.splitOn ':').filter (· ≠ [])).getLastD []

/-- Spec-side (claim C4 vocabulary): `needle` occurs contiguously in
`hay`. -/
def containsSeq (needle hay : Str) : Bool :=
  match hay with
  | [] => needle.isPrefixOf []
  | _ :: t => needle.isPrefixOf hay || containsSeq needle t

/-- Spec-side (claim C4 vocabulary): the bare identifier of the target
function occurs textually in some source file of the crate. -/
def sourceMentionsIdent (env : CallEnv) (functionPath : Str) : Bool :=
  env.srcFiles.any (fun f => containsSeq (specLastIdent functionPath) f)

/-! ## Traversal engine (`find_all_dependents`, `src/dependency_analyzer.rs`) -/

/-- `struct DependencyNode`: a crate version with the reverse
dependents recorded for it (dependent name, dependent version,
requirement string). -/
structure DependencyNode where
  name : Str
  version : Str
  dependents : List (Str × Str × Str)
deriving DecidableEq, Repr

/-- Oracle environment of a traversal run.  `queryVersions` and
`queryDependents` model the two registry queries; `checkCall` models
`check_function_call` (its result for a given name and version);
`parseVersion`, `parseReq` and `reqMatches` model the external `semver`
crate (`Version::parse`, `VersionReq::parse`, `VersionReq::matches`):
parsing returns `some` token on success, and `reqMatches req ver` is
standard semantic-version comparator matching. -/
structure AnalyzerEnv where
  queryVersions : Str → List Str
  queryDependents : Str → List (Str × Str × Str)
  checkCall : Str → Str → Option Str
  parseVersion : Str → Option Str
  parseReq : Str → Option Str
  reqMatches : Str → Str → Bool

/-- Observable events of a traversal run.  `processNode` marks a node
being popped from the BFS queue; `analyse` is an invocation of
`check_function_call` (with whether it returned `Some`); `enqueue` is a
dependent being pushed onto the BFS queue; `emitFile` is the
result-file write of `process_leaf_node`; `patchManifest` is a
manifest-patch step — the traversal source contains no call to the
patch helpers of `krate.rs`, so the embedding never emits it (it exists
to state claim C1). -/
inductive TraceEvent where
  | processNode (name version : Str)
  | analyse (name version : Str) (positive : Bool)
  | enqueue (name version : Str)
  | emitFile (name version content : Str)
  | patchManifest (name version : Str)
deriving DecidableEq, Repr

/-- Result of processing the dependents of one popped node: the node's
recorded dependents, the `has_valid_dependents` flag, updated visited
set, newly enqueued pairs (in order), and the events. -/
structure DepScan where
  recorded : List (Str × Str × Str)
  hasValid : Bool
  visited : List (Str × Str)
  enqueued : List (Str × Str)
  events : List TraceEvent
deriving Repr

/-- The `for (dep_name, dep_version, req) in dependents` loop of
`find_all_dependents`: parse the current version and the requirement,
test the match, run `check_function_call` on the dependent, record it
and — if not yet visited — enqueue it and insert it into `visited`. -/
def scanDependents (env : AnalyzerEnv) (currentVersion : Str)
    (visited : List (Str × Str)) :
    List (Str × Str × Str) → DepScan
  | [] => ⟨[], false, visited, [], []⟩
  | (depName, depVersion, req) :: rest =>
    match env.parseVersion currentVersion, env.parseReq req with
    | some ver, some depReq =>
      if env.reqMatches depReq ver then
        match env.checkCall depName depVersion with
        | some _ =>
          let ev0 := [TraceEvent.analyse depName depVersion true]
          if (depName, depVersion) ∈ visited then
            let s := scanDependents env currentVersion visited rest
            ⟨(depName, depVersion, req) :: s.recorded, true, s.visited,
              s.enqueued, ev0 ++ s.events⟩
          else
            let s := scanDependents env currentVersion
              ((depName, depVersion) :: visited) rest
            ⟨(depName, depVersion, req) :: s.recorded, true, s.visited,
              (depName, depVersion) :: s.enqueued,
              ev0 ++ [TraceEvent.enqueue depName depVersion] ++ s.events⟩
        | none =>
          let s := scanDependents env currentVersion visited rest
          ⟨s.recorded, s.hasValid, s.visited, s.enqueued,
            TraceEvent.analyse depName depVersion false :: s.events⟩
      else
        scanDependents env currentVersion visited rest
    | _, _ => scanDependents env currentVersion visited rest

/-- State of the `while let Some(..) = queue.pop_front()` loop. -/
structure BfsState where
  queue : List (Str × Str)
  visited : List (Str × Str)
  leafNodes : List DependencyNode
  trace : List TraceEvent
deriving Repr

/-- One iteration of the BFS loop: pop the front node, query and scan
its dependents, append new dependents to the queue, and record the node
as a leaf when it acquired no valid dependents. -/
def bfsStep (env : AnalyzerEnv) (s : BfsState) : BfsState :=
  match s.queue with
  | [] => s
  | (currentCrate, currentVersion) :: rest =>
    let deps := env.queryDependents currentCrate
    let sc := scanDependents env currentVersion s.visited deps
    { queue := rest ++ sc.enqueued
      visited := sc.visited
      leafNodes :=
        if sc.hasValid then s.leafNodes
        else s.leafNodes ++ [⟨currentCrate, currentVersion, sc.recorded⟩]
      trace := s.trace ++ TraceEvent.processNode currentCrate currentVersion :: sc.events }

/-- The BFS loop, run for at most `fuel` iterations (the Rust loop runs
until the queue empties; every claim below is either invariant in
`fuel` or hypothesises that the queue has emptied). -/
def bfsRun (env : AnalyzerEnv) : Nat → BfsState → BfsState
  | 0, s => s
  | fuel + 1, s =>
    match s.queue with
    | [] => s
    | _ :: _ => bfsRun env fuel (bfsStep env s)

/-- `process_leaf_node`: re-run `check_function_call` on the node and,
when it reports callers, write `target/<name>-<version>-callers.json`.
Directory creation and the write succeed in the model.  Returns the
written file (if any) and the events. -/
def process_leaf_node (env : AnalyzerEnv) (node : DependencyNode) :
    List (Str × Str × Str) × List TraceEvent :=
  match env.checkCall node.name node.version with
  | some content =>
    ([(node.name, node.version, content)],
      [TraceEvent.analyse node.name node.version true,
        TraceEvent.emitFile node.name node.version content])
  | none => ([], [TraceEvent.analyse node.name node.version false])

/-- One thread's `for node in local_nodes` loop: each drained node is
handed to `process_leaf_node`; the files and events accumulate in
order. -/
def processBatch (env : AnalyzerEnv) :
    List DependencyNode → List (Str × Str × Str) × List TraceEvent
  | [] => ([], [])
  | node :: rest =>
    let p := process_leaf_node env node
    let q := processBatch env rest
    (p.1 ++ q.1, p.2 ++ q.2)

/-- The thread count of the leaf stage's pool (`num_threads = 32`). -/
def numThreads : Nat := 32

/-- One worker thread's critical section on the shared node vector:
with `start = thread_id * nodes_per_thread` and
`end = min(start + nodes_per_thread, nodes.len())` computed against the
*current* (already partly drained) vector, `nodes.drain(start..end)`
removes and returns the elements of that index range — and panics when
`start` exceeds the current length (the range is invalid).  Returns the
drained batch and the remaining vector, or `none` for the panic. -/
def drainChunk (threadId npt : Nat) (v : List DependencyNode) :
    Option (List DependencyNode × List DependencyNode) :=
  if threadId * npt ≤ v.length then
    some ((v.drop (threadId * npt)).take npt,
      v.take (threadId * npt) ++ (v.drop (threadId * npt)).drop npt)
  else none

/-- Outcome of the thread-pool leaf stage: the result files written,
the analyse/emit events, and whether some thread panicked.  A panic
poisons the shared mutex, so threads that lock afterwards do no work,
and the parent's `join().unwrap()` re-raises the panic — a panicked
stage never returns control normally (the files and events are the
side effects performed before the poison). -/
structure LeafStageResult where
  files : List (Str × Str × Str)
  trace : List TraceEvent
  panicked : Bool
deriving Repr, DecidableEq

/-- The 32 worker threads of `process_leaf_nodes_parallel`, interleaved
at the granularity of the shared-mutex critical section: `order` is the
sequence of thread ids in the order they acquire the lock (a schedule —
any permutation of `0..31` can occur).  A thread that completes its
drain processes its whole batch (the processing touches no shared
state); a thread whose drain panics poisons the mutex and no later
thread does any work. -/
def leafThreads (env : AnalyzerEnv) (npt : Nat) :
    List Nat → List DependencyNode → LeafStageResult
  | [], _ => ⟨[], [], false⟩
  | i :: rest, v =>
    match drainChunk i npt v with
    | none => ⟨[], [], true⟩
    | some (batch, v2) =>
      let p := processBatch env batch
      let q := leafThreads env npt rest v2
      ⟨p.1 ++ q.files, p.2 ++ q.trace, q.panicked⟩

/-- `process_leaf_nodes_parallel`: 32 threads chunk the shared leaf
vector with `drain(start..end)`, where `nodes_per_thread` is the
ceiling division of the *original* length by the thread count but every
`start` index is interpreted against the already-drained vector.
`order` is the lock-acquisition schedule of the threads. -/
def process_leaf_nodes_parallel (env : AnalyzerEnv) (order : List Nat)
    (nodes : List DependencyNode) : LeafStageResult :=
  leafThreads env ((nodes.length + numThreads - 1) / numThreads) order nodes

/-- The schedule in which the first-spawned thread locks first. -/
def fullOrder : List Nat := List.range 32

/-- The schedule in which the last-spawned thread locks first. -/
def revOrder : List Nat := (List.range 32).reverse

/-- Result of a whole `find_all_dependents` run: the leaf-node list
(computed by the BFS, handed to the leaf stage, and returned on normal
termination), the files written under `target/`, the event trace, the
final BFS state, and whether the leaf stage panicked — in the source a
panicked stage propagates through `join().unwrap()`, so the function
then never returns (the files and trace are the effects performed up to
that point). -/
structure RunResult where
  leaves : List DependencyNode
  files : List (Str × Str × Str)
  trace : List TraceEvent
  finalState : BfsState
  panicked : Bool
deriving Repr

/-- The initial queue: every version of the start crate that parses and
matches the parsed version range, paired with the crate name (pushed
directly onto the queue; seeds are not inserted into `visited`). -/
def seedQueue (env : AnalyzerEnv) (startCrate : Str) (versionRange : Str) :
    List (Str × Str) :=
  match env.parseReq versionRange with
  | none => []
  | some vr =>
    (env.queryVersions startCrate).filterMap fun v =>
      match env.parseVersion v with
      | some pv => if env.reqMatches vr pv then some (startCrate, v) else none
      | none => none

/-- `find_all_dependents`: parse the version range (returning the empty
result on failure, as the Rust does), seed the queue, run the BFS, then
hand exactly the collected leaf nodes to the parallel leaf stage, whose
thread schedule is the `order` parameter. -/
def find_all_dependents (env : AnalyzerEnv) (startCrate versionRange : Str)
    (fuel : Nat) (order : List Nat) : RunResult :=
  match env.parseReq versionRange with
  | none => ⟨[], [], [], ⟨[], [], [], []⟩, false⟩
  | some _ =>
    let s0 : BfsState := ⟨seedQueue env startCrate versionRange, [], [], []⟩
    let sF := bfsRun env fuel s0
    let leafRun := process_leaf_nodes_parallel env order sF.leafNodes
    ⟨sF.leafNodes, leafRun.files, sF.trace ++ leafRun.trace, sF, leafRun.panicked⟩

/-! ## Helper lemmas: trim, lines, join -/

theorem head?_dropWhile_isWs (s : Str) (c : Char)
    (h : (s.dropWhile isWs).head? = some c) : isWs c = false := by
  induction s with
  | nil => simp [List.dropWhile] at h
  | cons a t ih =>
    rw [List.dropWhile_cons] at h
    by_cases ha : isWs a
    · exact ih (by simpa [ha] using h)
    · have : a = c := by simpa [ha] using h
      rw [← this]
      simpa using ha

theorem rtrimAux_isPrefix (s : Str) :
    (s.reverse.dropWhile isWs).reverse <+: s := by
  have h1 : s.reverse.dropWhile isWs <:+ s.reverse := List.dropWhile_suffix _
  have h2 := List.IsSuffix.reverse h1
  simpa using h2

theorem trim_head_not_ws (s : Str) (c : Char) (cs : Str)
    (h : trim s = c :: cs) : isWs c = false := by
  have hpre : trim s <+: s.dropWhile isWs := rtrimAux_isPrefix (s.dropWhile isWs)
  rcases hpre with ⟨t, ht⟩
  apply head?_dropWhile_isWs s c
  rw [← ht, h]
  rfl

theorem trim_sublist (s : Str) : List.Sublist (trim s) s := by
  have h1 : List.Sublist (s.dropWhile isWs) s := List.dropWhile_sublist _
  have h2 : List.Sublist ((s.dropWhile isWs).reverse.dropWhile isWs)
      (s.dropWhile isWs).reverse := List.dropWhile_sublist _
  have h3 := h2.reverse
  simp only [List.reverse_reverse] at h3
  exact h3.trans h1

theorem mem_of_mem_trim {s : Str} {x : Char} (h : x ∈ trim s) : x ∈ s :=
  (trim_sublist s).subset h

theorem trim_eq_self (s : Str)
    (hh : ∀ c, s.head? = some c → isWs c = false)
    (hl : ∀ c, s.getLast? = some c → isWs c = false) : trim s = s := by
  cases s with
  | nil => rfl
  | cons a t =>
    have ha : isWs a = false := hh a rfl
    have hdrop : (a :: t).dropWhile isWs = a :: t := by
      simp [List.dropWhile, ha]
    unfold trim
    rw [hdrop]
    rcases hrev : (a :: t).reverse with _ | ⟨b, rt⟩
    · simp at hrev
    · have hb : (a :: t).getLast? = some b := by
        rw [← List.head?_reverse, hrev]; rfl
      have hbw : isWs b = false := hl b hb
      rw [List.dropWhile_cons, hbw]
      simp [← hrev]

theorem getLast?_ne_cr_of_not_mem {s : Str} (h : '\r' ∉ s) :
    s.getLast? ≠ some '\r' := by
  intro hc
  rcases s.eq_nil_or_concat with rfl | ⟨t, a, rfl⟩
  · simp at hc
  · rw [List.concat_eq_append, List.getLast?_concat] at hc
    have : a = '\r' := by simpa using hc
    subst this
    exact h (by simp)

theorem splitOn_nl_spec (xs : Str) :
    ∀ el ∈ xs.splitOn '\n', '\n' ∉ el ∧ ∀ x ∈ el, x ∈ xs := by
  induction xs with
  | nil =>
    intro el hel
    rw [List.splitOn, List.splitOnP_nil] at hel
    rcases List.mem_singleton.mp hel with rfl
    simp
  | cons a t ih =>
    intro el hel
    simp only [List.splitOn] at hel ih
    rw [List.splitOnP_cons] at hel
    by_cases ha : a = '\n'
    · rw [if_pos (by simpa using ha)] at hel
      rcases List.mem_cons.mp hel with rfl | hel
      · simp
      · rcases ih el hel with ⟨h1, h2⟩
        exact ⟨h1, fun x hx => List.mem_cons_of_mem _ (h2 x hx)⟩
    · rw [if_neg (by simpa using ha)] at hel
      rcases hsp : List.splitOnP (fun x => x == '\n') t with _ | ⟨h0, rest⟩
      · exact absurd hsp (List.splitOnP_ne_nil _ t)
      · rw [hsp] at hel
        simp only [List.modifyHead] at hel
        rcases List.mem_cons.mp hel with rfl | hmem2
        · have hmem : h0 ∈ List.splitOnP (fun x => x == '\n') t := by
            rw [hsp]; exact List.mem_cons_self _ _
          rcases ih h0 hmem with ⟨h1, h2⟩
          constructor
          · intro hx
            rcases List.mem_cons.mp hx with heq | hx
            · exact ha heq.symm
            · exact h1 hx
          · intro x hx
            rcases List.mem_cons.mp hx with rfl | hx
            · exact List.mem_cons_self _ _
            · exact List.mem_cons_of_mem _ (h2 x hx)
        · have hmem : el ∈ List.splitOnP (fun x => x == '\n') t := by
            rw [hsp]; exact List.mem_cons_of_mem _ hmem2
          rcases ih el hmem with ⟨h1, h2⟩
          exact ⟨h1, fun x hx => List.mem_cons_of_mem _ (h2 x hx)⟩

theorem mem_rustLines_cases {c : Str} {el : Str} (h : el ∈ rustLines c) :
    ∃ el0 ∈ c.splitOn '\n', el = stripTrailingCr el0 ∨ el = el0 := by
  unfold rustLines at h
  by_cases hc : c = []
  · simp [hc] at h
  · simp only [hc, if_neg, if_false, not_false_iff] at h
    split at h
    · rcases List.mem_map.mp h with ⟨el0, hel0, rfl⟩
      exact ⟨el0, (List.dropLast_sublist _).subset hel0, Or.inl rfl⟩
    · rcases List.mem_append.mp h with h | h
      · rcases List.mem_map.mp h with ⟨el0, hel0, rfl⟩
        exact ⟨el0, (List.dropLast_sublist _).subset hel0, Or.inl rfl⟩
      · have hne : c.splitOn '\n' ≠ [] := by
          simpa [List.splitOn] using List.splitOnP_ne_nil _ c
        rcases List.mem_singleton.mp h with rfl
        refine ⟨(c.splitOn '\n').getLastD [], ?_, Or.inr rfl⟩
        rcases hsp : c.splitOn '\n' with _ | ⟨p0, ps⟩
        · exact absurd hsp hne
        · rw [List.getLastD_eq_getLast?, List.getLast?_eq_getLast _ (by simp)]
          simp [List.getLast_mem]

theorem stripTrailingCr_sublist (s : Str) : List.Sublist (stripTrailingCr s) s := by
  unfold stripTrailingCr
  split
  · exact List.dropLast_sublist s
  · exact List.Sublist.refl s

theorem rustLines_nl_not_mem {c : Str} {el : Str} (h : el ∈ rustLines c) :
    '\n' ∉ el := by
  rcases mem_rustLines_cases h with ⟨el0, hel0, hcase⟩
  have h1 := (splitOn_nl_spec c el0 hel0).1
  rcases hcase with rfl | rfl
  · exact fun hx => h1 ((stripTrailingCr_sublist el0).subset hx)
  · exact h1

theorem rustLines_subset {c : Str} {el : Str} (h : el ∈ rustLines c) :
    ∀ x ∈ el, x ∈ c := by
  rcases mem_rustLines_cases h with ⟨el0, hel0, hcase⟩
  have h2 := (splitOn_nl_spec c el0 hel0).2
  rcases hcase with rfl | rfl
  · exact fun x hx => h2 x ((stripTrailingCr_sublist el0).subset hx)
  · exact h2

theorem joinLines_nil : joinLines [] = [] := rfl

theorem joinLines_single (a : Str) : joinLines [a] = a := by
  simp [joinLines, List.intercalate]

theorem joinLines_cons_cons (a b : Str) (t : List Str) :
    joinLines (a :: b :: t) = a ++ '\n' :: joinLines (b :: t) := by
  simp [joinLines, List.intercalate, List.intersperse]

theorem joinLines_getLast? (M : List Str) (el : Str)
    (hlast : M.getLast? = some el) (hne : el ≠ []) :
    (joinLines M).getLast? = el.getLast? := by
  induction M with
  | nil => simp at hlast
  | cons a t ih =>
    cases t with
    | nil =>
      have : a = el := by simpa using hlast
      subst this
      rw [joinLines_single]
    | cons b t2 =>
      rw [List.getLast?_cons_cons] at hlast
      have ih2 := ih hlast
      rw [joinLines_cons_cons, List.getLast?_append_cons]
      rcases hJ : joinLines (b :: t2) with _ | ⟨j, js⟩
      · rw [hJ] at ih2
        simp only [List.getLast?_nil] at ih2
        rcases el.eq_nil_or_concat with hn | ⟨u, x, hcat⟩
        · exact absurd hn hne
        · rw [hcat, List.concat_eq_append, List.getLast?_concat] at ih2
          simp at ih2
      · rw [hJ] at ih2
        rw [List.getLast?_cons_cons, ih2]

theorem joinLines_ne_nil (M : List Str) (el : Str)
    (hlast : M.getLast? = some el) (hne : el ≠ []) : joinLines M ≠ [] := by
  intro hj
  have h1 := joinLines_getLast? M el hlast hne
  rw [hj] at h1
  simp only [List.getLast?_nil] at h1
  rcases el.eq_nil_or_concat with hn | ⟨u, x, hcat⟩
  · exact hne hn
  · rw [hcat, List.concat_eq_append, List.getLast?_concat] at h1
    simp at h1

theorem rustLines_joinLines (M : List Str) (el : Str)
    (hlast : M.getLast? = some el) (hne : el ≠ [])
    (hnl : ∀ l ∈ M, '\n' ∉ l)
    (hcr : ∀ l ∈ M, l.getLast? ≠ some '\r') :
    rustLines (joinLines M) = M := by
  have hM : M ≠ [] := by
    intro h
    rw [h] at hlast
    simp at hlast
  have hJne : joinLines M ≠ [] := joinLines_ne_nil M el hlast hne
  have hsplit : (joinLines M).splitOn '\n' = M := by
    have := @List.splitOn_intercalate Char M _ '\n' hnl hM
    simpa [joinLines] using this
  have helM : el ∈ M := by
    rw [List.getLast?_eq_getLast M hM] at hlast
    have : M.getLast hM = el := by simpa using hlast
    rw [← this]
    exact List.getLast_mem hM
  have hlast_not_nl : (joinLines M).getLast? ≠ some '\n' := by
    rw [joinLines_getLast? M el hlast hne]
    intro hc
    rcases el.eq_nil_or_concat with hn | ⟨t, a, hcat⟩
    · exact hne hn
    · rw [hcat, List.concat_eq_append, List.getLast?_concat] at hc
      have ha : a = '\n' := by simpa using hc
      apply hnl el helM
      rw [hcat, ha]
      simp
  unfold rustLines
  rw [if_neg hJne, hsplit, if_neg hlast_not_nl]
  have hstrip : (M.dropLast).map stripTrailingCr = M.dropLast := by
    have : ∀ (L : List Str), (∀ l ∈ L, l.getLast? ≠ some '\r') →
        L.map stripTrailingCr = L := by
      intro L
      induction L with
      | nil => intro _; rfl
      | cons x xs ih2 =>
        intro hL
        have hx : stripTrailingCr x = x := by
          unfold stripTrailingCr
          rw [if_neg (hL x (List.mem_cons_self _ _))]
        simp only [List.map_cons, hx, ih2 (fun l hl => hL l (List.mem_cons_of_mem _ hl))]
    exact this _ (fun l hl => hcr l ((List.dropLast_sublist M).subset hl))
  rw [hstrip]
  have hgetD : M.getLastD [] = M.getLast hM := by
    rw [List.getLastD_eq_getLast?, List.getLast?_eq_getLast M hM]
    rfl
  rw [hgetD]
  exact List.dropLast_concat_getLast hM

/-! ## Helper lemmas: prefix overlap -/

/-- The bracket-table prefix `[dependencies.` contains neither a space
nor an equals sign, so no line can simultaneously start with
`<name> <sep>` (`sep` a space or `=`) and with `[dependencies.<name>]`. -/
theorem sep_overlap_false (sep : Char) (hsep : sep = ' ' ∨ sep = '=') :
    ∀ k (name s : Str), name.length ≤ k →
      (name ++ [sep]) <+: s → depSubHeader name <+: s → False := by
  intro k
  induction k with
  | zero =>
    intro name s hlen h1 h2
    have hname : name = [] := List.length_eq_zero.mp (Nat.le_zero.mp hlen)
    subst hname
    rcases h1 with ⟨t1, ht1⟩
    rcases h2 with ⟨t2, ht2⟩
    rw [← ht1] at ht2
    simp only [depSubHeader, List.nil_append] at ht2
    have hhd : sep = '[' := by
      have := congrArg (fun l => l.head?) ht2
      simpa using this.symm
    rcases hsep with rfl | rfl <;> simp at hhd
  | succ k ih =>
    intro name s hlen h1 h2
    have hlen1 : (name ++ [sep]).length ≤ (depSubHeader name).length := by
      simp [depSubHeader]
    have hH : (name ++ [sep]) <+: depSubHeader name :=
      List.prefix_of_prefix_length_le h1 h2 hlen1
    by_cases hsmall : name.length < 14
    · have hpfx : (name ++ [sep]) <+: "[dependencies.".data := by
        refine List.prefix_of_prefix_length_le hH ?_ ?_
        · refine ⟨name ++ "]".data, ?_⟩
          simp [depSubHeader, List.append_assoc]
        · simp
          omega
      have hmem : sep ∈ "[dependencies.".data :=
        hpfx.subset (by simp)
      have hall : "[dependencies.".data.all (fun ch => ch ≠ ' ' && ch ≠ '=') = true := by
        decide
      have h3 := List.all_eq_true.mp hall sep hmem
      rcases hsep with rfl | rfl <;> simp at h3
    · push_neg at hsmall
      have hname_pfx : name <+: depSubHeader name :=
        List.IsPrefix.trans (List.prefix_append name [sep]) hH
      have hc_pfx : "[dependencies.".data <+: depSubHeader name := by
        refine ⟨name ++ "]".data, ?_⟩
        simp [depSubHeader, List.append_assoc]
      have hc_name : "[dependencies.".data <+: name :=
        List.prefix_of_prefix_length_le hc_pfx hname_pfx (by simpa using hsmall)
      rcases hc_name with ⟨m, hm⟩
      have hlen_m : m.length ≤ k := by
        have hlm := congrArg List.length hm
        simp at hlm
        omega
      rcases hH with ⟨t, ht⟩
      rw [← hm] at ht
      simp only [depSubHeader, ← hm, List.append_assoc] at ht
      have ht2 := List.append_cancel_left ht
      apply ih m ("[dependencies.".data ++ (m ++ "]".data)) hlen_m
      · refine ⟨t, ?_⟩
        rw [List.append_assoc]
        exact ht2
      · refine ⟨[], ?_⟩
        simp [depSubHeader, List.append_assoc]

/-! ## Helper lemmas: the patch scan -/

/-- The two state flags that drive the scan (the `modified` flag is
only logged and never read by the scan). -/
def stPairEq (s t : ScanState) : Prop :=
  s.inDependencies = t.inDependencies ∧ s.inDepTable = t.inDepTable

/-- Reachable scan states never have both table flags set. -/
def stInv (s : ScanState) : Prop :=
  s.inDependencies = false ∨ s.inDepTable = false

theorem processLine_congr (n v : Str) (s t : ScanState) (l : Str)
    (h : stPairEq s t) :
    stPairEq (processLine n v s l).1 (processLine n v t l).1 ∧
      (processLine n v s l).2 = (processLine n v t l).2 := by
  rcases s with ⟨d1, b1, m1⟩
  rcases t with ⟨d2, b2, m2⟩
  rcases h with ⟨h1, h2⟩
  simp only [] at h1 h2
  subst h1
  subst h2
  simp only [processLine, stPairEq]
  split_ifs <;> simp_all

theorem processLine_inv (n v : Str) (s : ScanState) (l : Str)
    (h : stInv s) : stInv (processLine n v s l).1 := by
  rcases s with ⟨d1, b1, m1⟩
  simp only [processLine, stInv] at h ⊢
  split_ifs <;> simp_all

theorem processLine_modified_le (n v : Str) (s : ScanState) (l : Str)
    (h : s.modified = true) : (processLine n v s l).1.modified = true := by
  rcases s with ⟨d1, b1, m1⟩
  simp only [processLine]
  split_ifs <;> simp_all

theorem processLine_unchanged_of_not_modified (n v : Str) (s : ScanState) (l : Str)
    (h : (processLine n v s l).1.modified = false) :
    (processLine n v s l).2 = l ∧ s.modified = false := by
  rcases s with ⟨d1, b1, m1⟩
  simp only [processLine] at h ⊢
  split_ifs at h ⊢ <;> simp_all

theorem rtrim_eq_self (x : Str)
    (hl : ∀ c, x.getLast? = some c → isWs c = false) :
    (x.reverse.dropWhile isWs).reverse = x := by
  rcases hrev : x.reverse with _ | ⟨b, rt⟩
  · have : x = [] := by simpa using congrArg List.reverse hrev
    simp [this]
  · have hb : x.getLast? = some b := by rw [← List.head?_reverse, hrev]; rfl
    rw [List.dropWhile_cons, hl b hb]
    simp [← hrev]

theorem isPrefixOf_cons_ne {a c : Char} (as cs : Str) (h : a ≠ c) :
    (a :: as).isPrefixOf (c :: cs) = false := by
  apply Bool.eq_false_iff.mpr
  intro hT
  have hp := List.isPrefixOf_iff_prefix.mp hT
  rw [List.cons_prefix_cons] at hp
  exact h hp.1

theorem inlineRepl_getLast? (n v : Str) :
    (inlineRepl n v).getLast? = some '"' := by
  simp [inlineRepl, List.getLast?_cons, List.getLast?_append]

theorem subtableRepl_getLast? (v : Str) :
    (subtableRepl v).getLast? = some '"' := by
  simp [subtableRepl, List.getLast?_cons, List.getLast?_append]

/-- Characterisation of one scan step: either the line passes through
unchanged, or one of the two rewrites fired, and then the failed or
passed branch conditions are recorded. -/
theorem processLine_replaced (n v : Str) (s : ScanState) (l : Str) :
    (processLine n v s l).2 = l ∨
    (s.inDependencies = true ∧
      ((n ++ [' ']).isPrefixOf (trim l) || (n ++ ['=']).isPrefixOf (trim l)) = true ∧
      (depHeader.isPrefixOf (trim l) &&
        !((depSubHeader n).isPrefixOf (trim l))) = false ∧
      trim l ≠ depSubHeader n ∧
      (['['].isPrefixOf (trim l) && !(depHeader.isPrefixOf (trim l)) &&
        !((depSubHeader n).isPrefixOf (trim l))) = false ∧
      processLine n v s l = ({ s with modified := true }, inlineRepl n v)) ∨
    (s.inDepTable = true ∧
      "version".data.isPrefixOf (trim l) = true ∧
      processLine n v s l = ({ s with modified := true }, subtableRepl v)) := by
  rcases s with ⟨d1, b1, m1⟩
  simp only [processLine]
  split_ifs <;> simp_all

/-- Re-processing an inline replacement line in a state with
`in_dependencies` set rewrites it to itself. -/
theorem processLine_inline_again (n v : Str) (s : ScanState)
    (hd : s.inDependencies = true)
    (hg1 : depHeader.isPrefixOf (trim (inlineRepl n v)) = false)
    (hg2 : trim (inlineRepl n v) ≠ depSubHeader n)
    (hg3 : ['['].isPrefixOf (trim (inlineRepl n v)) = false)
    (hg4 : ((n ++ [' ']).isPrefixOf (trim (inlineRepl n v)) ||
      (n ++ ['=']).isPrefixOf (trim (inlineRepl n v))) = true) :
    processLine n v s (inlineRepl n v) = ({ s with modified := true }, inlineRepl n v) := by
  simp only [processLine, hg1, hg2, hg3, hg4, hd]
  simp [hd]

/-- Re-processing a sub-table replacement line in a state with
`in_dep_table` set rewrites it to itself. -/
theorem processLine_subtable_again (n v : Str) (s : ScanState)
    (hb : s.inDepTable = true) (hd : s.inDependencies = false)
    (hg1 : depHeader.isPrefixOf (trim (subtableRepl v)) = false)
    (hg2 : trim (subtableRepl v) ≠ depSubHeader n)
    (hg3 : ['['].isPrefixOf (trim (subtableRepl v)) = false)
    (hg5 : "version".data.isPrefixOf (trim (subtableRepl v)) = true) :
    processLine n v s (subtableRepl v) = ({ s with modified := true }, subtableRepl v) := by
  simp only [processLine, hg1, hg2, hg3, hg5, hb, hd]
  simp [hb, hd]

/-- Re-processing the output of one scan step (from a reachable state)
reproduces that step exactly: replaced lines are rewritten to
themselves and untouched lines stay untouched. -/
theorem processLine_stable (n v : Str) (s : ScanState) (l : Str) (hinv : stInv s) :
    processLine n v s (processLine n v s l).2 = processLine n v s l := by
  rcases processLine_replaced n v s l with hol | hrepl | hrepl
  · rw [hol]
  · rcases hrepl with ⟨hd, hc4, hc1, hc2, hc3, hout⟩
    rw [hout]
    have hc4d : (n ++ [' ']).isPrefixOf (trim l) = true ∨
        (n ++ ['=']).isPrefixOf (trim l) = true := by simpa using hc4
    have hsep : ∃ sep : Char, (sep = ' ' ∨ sep = '=') ∧
        ∃ t, (n ++ [sep]) ++ t = trim l := by
      rcases hc4d with h | h
      · exact ⟨' ', Or.inl rfl, List.isPrefixOf_iff_prefix.mp h⟩
      · exact ⟨'=', Or.inr rfl, List.isPrefixOf_iff_prefix.mp h⟩
    rcases hsep with ⟨sep, hsepv, t, ht⟩
    cases n with
    | nil =>
      have hsep_eq : sep = '=' := by
        have hhd : trim l = sep :: t := by rw [← ht]; rfl
        have hnw := trim_head_not_ws l sep t hhd
        rcases hsepv with rfl | rfl
        · simp [isWs] at hnw
        · rfl
      subst hsep_eq
      have hdrop : (inlineRepl [] v).dropWhile isWs
          = '=' :: ' ' :: '"' :: '=' :: (v ++ ['"']) := rfl
      have hlastd : ('=' :: ' ' :: '"' :: '=' :: (v ++ ['"'])).getLast? = some '"' := by
        simp [List.getLast?_cons, List.getLast?_append]
      have htrimR : trim (inlineRepl [] v) = '=' :: ' ' :: '"' :: '=' :: (v ++ ['"']) := by
        unfold trim
        rw [hdrop]
        refine rtrim_eq_self _ ?_
        intro c hc
        rw [hlastd] at hc
        have hcq : c = '"' := by simpa using hc.symm
        subst hcq
        decide
      refine processLine_inline_again [] v s hd ?_ ?_ ?_ ?_
      · rw [htrimR, show depHeader = '[' :: "dependencies]".data from rfl]
        exact isPrefixOf_cons_ne _ _ (by decide)
      · rw [htrimR]
        intro h
        simp [depSubHeader] at h
      · rw [htrimR]
        exact isPrefixOf_cons_ne _ _ (by decide)
      · rw [htrimR]
        have hB : (([] ++ ['=']) : Str).isPrefixOf
            ('=' :: ' ' :: '"' :: '=' :: (v ++ ['"'])) = true := by
          apply List.isPrefixOf_iff_prefix.mpr
          exact ⟨' ' :: '"' :: '=' :: (v ++ ['"']), rfl⟩
        simp [hB]
    | cons c0 n0 =>
      have hform : inlineRepl (c0 :: n0) v
          = c0 :: (n0 ++ (" = \"=".data ++ (v ++ "\"".data))) := by
        simp [inlineRepl]
      have htl : trim l = c0 :: (n0 ++ ([sep] ++ t)) := by
        rw [← ht]
        simp
      have hc0 : isWs c0 = false := trim_head_not_ws l c0 _ htl
      by_cases hbr : c0 = '['
      · -- head `[`: the line would have to start with both `<name> <sep>`
        -- and `[dependencies.<name>]`, which is impossible.
        have h_lb : ['['].isPrefixOf (trim l) = true := by
          rw [htl, hbr]
          apply List.isPrefixOf_iff_prefix.mpr
          exact ⟨_, rfl⟩
        by_cases hsub : (depSubHeader (c0 :: n0)).isPrefixOf (trim l) = true
        · exact absurd (sep_overlap_false sep hsepv (c0 :: n0).length (c0 :: n0)
            (trim l) le_rfl ⟨t, ht⟩ (List.isPrefixOf_iff_prefix.mp hsub)) (fun h => h)
        · have hdep : depHeader.isPrefixOf (trim l) = true := by
            rw [h_lb] at hc3
            rcases Bool.and_eq_false_iff.mp hc3 with h | h
            · rcases Bool.and_eq_false_iff.mp h with h | h
              · simp at h
              · simpa using h
            · simp [Bool.not_eq_true'] at h
              exact absurd h (by simpa using hsub)
          rw [hdep] at hc1
          have hsub2 : (depSubHeader (c0 :: n0)).isPrefixOf (trim l) = true := by
            rcases Bool.and_eq_false_iff.mp hc1 with h | h
            · simp at h
            · simpa using h
          exact absurd hsub2 hsub
      · have hheadR : (inlineRepl (c0 :: n0) v).head? = some c0 := by rw [hform]; rfl
        have htrimR : trim (inlineRepl (c0 :: n0) v) = inlineRepl (c0 :: n0) v := by
          apply trim_eq_self
          · intro c hc
            rw [hheadR] at hc
            have hcq : c = c0 := by simpa using hc.symm
            subst hcq
            exact hc0
          · intro c hc
            rw [inlineRepl_getLast? _ _] at hc
            have hcq : c = '"' := by simpa using hc.symm
            subst hcq
            decide
        refine processLine_inline_again (c0 :: n0) v s hd ?_ ?_ ?_ ?_
        · rw [htrimR, hform, show depHeader = '[' :: "dependencies]".data from rfl]
          exact isPrefixOf_cons_ne _ _ (fun h => hbr h.symm)
        · rw [htrimR, hform]
          intro h
          have hh := congrArg List.head? h
          simp [depSubHeader] at hh
          exact hbr hh
        · rw [htrimR, hform]
          exact isPrefixOf_cons_ne _ _ (fun h => hbr h.symm)
        · rw [htrimR]
          have hA : ((c0 :: n0) ++ [' ']).isPrefixOf (inlineRepl (c0 :: n0) v) = true := by
            apply List.isPrefixOf_iff_prefix.mpr
            have h1 : ((c0 :: n0) ++ [' ']) <+: ((c0 :: n0) ++ " = \"=".data) :=
              (List.prefix_append_right_inj (c0 :: n0)).mpr ⟨"= \"=".data, rfl⟩
            have h2 : ((c0 :: n0) ++ " = \"=".data) <+: inlineRepl (c0 :: n0) v := by
              apply List.IsPrefix.trans (List.prefix_append _ v)
              unfold inlineRepl
              exact List.prefix_append _ _
            exact h1.trans h2
          simp
          exact Or.inl (List.isPrefixOf_iff_prefix.mp hA)
  · rcases hrepl with ⟨hb, hc5, hout⟩
    rw [hout]
    have hd_false : s.inDependencies = false := by
      rcases hinv with h | h
      · exact h
      · rw [h] at hb; exact absurd hb (by simp)
    have hheadR : (subtableRepl v).head? = some 'v' := rfl
    have htrimR : trim (subtableRepl v) = subtableRepl v := by
      apply trim_eq_self
      · intro c hc
        rw [hheadR] at hc
        have hcq : c = 'v' := by simpa using hc.symm
        subst hcq
        decide
      · intro c hc
        rw [subtableRepl_getLast? _] at hc
        have hcq : c = '"' := by simpa using hc.symm
        subst hcq
        decide
    have hform : subtableRepl v
        = 'v' :: ("ersion = \"=".data ++ (v ++ "\"".data)) := rfl
    refine processLine_subtable_again n v s hb hd_false ?_ ?_ ?_ ?_
    · rw [htrimR, hform, show depHeader = '[' :: "dependencies]".data from rfl]
      exact isPrefixOf_cons_ne _ _ (by decide)
    · rw [htrimR, hform]
      intro h
      have hh := congrArg List.head? h
      simp [depSubHeader] at hh
    · rw [htrimR, hform]
      exact isPrefixOf_cons_ne _ _ (by decide)
    · rw [htrimR]
      apply List.isPrefixOf_iff_prefix.mpr
      have h1 : ("version".data : Str) <+: "version = \"=".data := ⟨" = \"=".data, rfl⟩
      have h2 : ("version = \"=".data : Str) <+: subtableRepl v := by
        apply List.IsPrefix.trans (List.prefix_append _ v)
        unfold subtableRepl
        exact List.prefix_append _ _
      exact h1.trans h2

/-! ## Scan-level lemmas -/

theorem patchLinesGo_congr (n v : Str) :
    ∀ (L : List Str) (s t : ScanState), stPairEq s t →
      stPairEq (patchLinesGo n v s L).1 (patchLinesGo n v t L).1 ∧
        (patchLinesGo n v s L).2 = (patchLinesGo n v t L).2 := by
  intro L
  induction L with
  | nil => intro s t h; exact ⟨h, rfl⟩
  | cons l ls ih =>
    intro s t h
    have hp := processLine_congr n v s t l h
    have hi := ih (processLine n v s l).1 (processLine n v t l).1 hp.1
    simp only [patchLinesGo]
    exact ⟨hi.1, by rw [hp.2, hi.2]⟩

theorem patchLinesGo_inv (n v : Str) :
    ∀ (L : List Str) (s : ScanState), stInv s → stInv (patchLinesGo n v s L).1 := by
  intro L
  induction L with
  | nil => intro s h; exact h
  | cons l ls ih =>
    intro s h
    simp only [patchLinesGo]
    exact ih _ (processLine_inv n v s l h)

theorem patchLinesGo_stable (n v : Str) :
    ∀ (L : List Str) (s t : ScanState), stInv s → stPairEq s t →
      (patchLinesGo n v t (patchLinesGo n v s L).2).2 = (patchLinesGo n v s L).2 := by
  intro L
  induction L with
  | nil => intro s t _ _; rfl
  | cons l ls ih =>
    intro s t hinv h
    simp only [patchLinesGo]
    have hstab := processLine_stable n v s l hinv
    have hcg := processLine_congr n v s t (processLine n v s l).2 h
    have hout : (processLine n v t (processLine n v s l).2).2 = (processLine n v s l).2 := by
      rw [← hcg.2, hstab]
    have hpair : stPairEq (processLine n v s l).1
        (processLine n v t (processLine n v s l).2).1 := by
      have h1 := hcg.1
      rw [hstab] at h1
      exact h1
    have hi := ih (processLine n v s l).1
      (processLine n v t (processLine n v s l).2).1
      (processLine_inv n v s l hinv) hpair
    rw [hout, hi]

theorem patchLinesGo_modified_le (n v : Str) :
    ∀ (L : List Str) (s : ScanState), s.modified = true →
      (patchLinesGo n v s L).1.modified = true := by
  intro L
  induction L with
  | nil => intro s h; exact h
  | cons l ls ih =>
    intro s h
    simp only [patchLinesGo]
    exact ih _ (processLine_modified_le n v s l h)

theorem patchLinesGo_id_of_not_modified (n v : Str) :
    ∀ (L : List Str) (s : ScanState),
      (patchLinesGo n v s L).1.modified = false → (patchLinesGo n v s L).2 = L := by
  intro L
  induction L with
  | nil => intro s _; rfl
  | cons l ls ih =>
    intro s h
    simp only [patchLinesGo] at h ⊢
    have h1 : (processLine n v s l).1.modified = false := by
      by_contra hc
      have : (processLine n v s l).1.modified = true := by
        revert hc
        cases (processLine n v s l).1.modified <;> simp
      have := patchLinesGo_modified_le n v ls _ this
      rw [this] at h
      exact absurd h (by simp)
    rw [(processLine_unchanged_of_not_modified n v s l h1).1, ih _ h]

theorem processLine_out_nl (n v : Str) (s : ScanState) (l : Str)
    (hl : '\n' ∉ l) (hv : '\n' ∉ v) : '\n' ∉ (processLine n v s l).2 := by
  rcases processLine_replaced n v s l with hol | hrepl | hrepl
  · rw [hol]; exact hl
  · rcases hrepl with ⟨_, hc4, _, _, _, hout⟩
    rw [hout]
    have hnn : '\n' ∉ n := by
      intro hmem
      have hc4d : (n ++ [' ']).isPrefixOf (trim l) = true ∨
          (n ++ ['=']).isPrefixOf (trim l) = true := by simpa using hc4
      have hnt : '\n' ∈ trim l := by
        rcases hc4d with h | h
        · exact (List.isPrefixOf_iff_prefix.mp h).subset (by simp [hmem])
        · exact (List.isPrefixOf_iff_prefix.mp h).subset (by simp [hmem])
      exact hl (mem_of_mem_trim hnt)
    intro hmem
    simp only [inlineRepl, List.mem_append] at hmem
    rcases hmem with ((h | h) | h) | h
    · exact hnn h
    · revert h; decide
    · exact hv h
    · revert h; decide
  · rcases hrepl with ⟨_, _, hout⟩
    rw [hout]
    intro hmem
    simp only [subtableRepl, List.mem_append] at hmem
    rcases hmem with (h | h) | h
    · revert h; decide
    · exact hv h
    · revert h; decide

theorem processLine_out_last_cr (n v : Str) (s : ScanState) (l : Str)
    (hl : l.getLast? ≠ some '\r') :
    (processLine n v s l).2.getLast? ≠ some '\r' := by
  rcases processLine_replaced n v s l with hol | hrepl | hrepl
  · rw [hol]; exact hl
  · rcases hrepl with ⟨_, _, _, _, _, hout⟩
    rw [hout]
    simp only [inlineRepl_getLast?]
    simp
  · rcases hrepl with ⟨_, _, hout⟩
    rw [hout]
    simp only [subtableRepl_getLast?]
    simp

theorem processLine_out_nil (n v : Str) (s : ScanState) (l : Str)
    (h : (processLine n v s l).2 = []) : l = [] := by
  rcases processLine_replaced n v s l with hol | hrepl | hrepl
  · rw [← hol]; exact h
  · rcases hrepl with ⟨_, _, _, _, _, hout⟩
    rw [hout] at h
    have h2 : inlineRepl n v = [] := by simpa using h
    have h3 := inlineRepl_getLast? n v
    rw [h2] at h3
    simp at h3
  · rcases hrepl with ⟨_, _, hout⟩
    rw [hout] at h
    have h2 : subtableRepl v = [] := by simpa using h
    have h3 := subtableRepl_getLast? v
    rw [h2] at h3
    simp at h3

theorem patchLinesGo_length (n v : Str) :
    ∀ (L : List Str) (s : ScanState), (patchLinesGo n v s L).2.length = L.length := by
  intro L
  induction L with
  | nil => intro s; rfl
  | cons l ls ih =>
    intro s
    simp only [patchLinesGo, List.length_cons]
    rw [ih]

theorem patchLinesGo_out_nl (n v : Str) :
    ∀ (L : List Str) (s : ScanState), (∀ l ∈ L, '\n' ∉ l) → '\n' ∉ v →
      ∀ out ∈ (patchLinesGo n v s L).2, '\n' ∉ out := by
  intro L
  induction L with
  | nil => intro s _ _ out hout; simp [patchLinesGo] at hout
  | cons l ls ih =>
    intro s hL hv out hout
    simp only [patchLinesGo] at hout
    rcases List.mem_cons.mp hout with rfl | hout
    · exact processLine_out_nl n v s l (hL l (List.mem_cons_self _ _)) hv
    · exact ih _ (fun x hx => hL x (List.mem_cons_of_mem _ hx)) hv out hout

theorem patchLinesGo_out_last_cr (n v : Str) :
    ∀ (L : List Str) (s : ScanState), (∀ l ∈ L, l.getLast? ≠ some '\r') →
      ∀ out ∈ (patchLinesGo n v s L).2, out.getLast? ≠ some '\r' := by
  intro L
  induction L with
  | nil => intro s _ out hout; simp [patchLinesGo] at hout
  | cons l ls ih =>
    intro s hL out hout
    simp only [patchLinesGo] at hout
    rcases List.mem_cons.mp hout with rfl | hout
    · exact processLine_out_last_cr n v s l (hL l (List.mem_cons_self _ _))
    · exact ih _ (fun x hx => hL x (List.mem_cons_of_mem _ hx)) out hout

theorem patchLinesGo_last_nil (n v : Str) :
    ∀ (L : List Str) (s : ScanState),
      (patchLinesGo n v s L).2.getLast? = some [] → L.getLast? = some [] := by
  intro L
  induction L with
  | nil => intro s h; simp [patchLinesGo] at h
  | cons l ls ih =>
    intro s h
    simp only [patchLinesGo] at h
    cases ls with
    | nil =>
      have hq : (patchLinesGo n v (processLine n v s l).1 []).2 = [] := rfl
      rw [hq] at h
      have hpl : (processLine n v s l).2 = [] := by simpa using h
      have := processLine_out_nil n v s l hpl
      simp [this]
    | cons l2 ls2 =>
      have hlen := patchLinesGo_length n v (l2 :: ls2) (processLine n v s l).1
      rcases hq : (patchLinesGo n v (processLine n v s l).1 (l2 :: ls2)).2 with _ | ⟨q0, qs⟩
      · rw [hq] at hlen; simp at hlen
      · rw [hq] at h
        rw [List.getLast?_cons_cons] at h
        rw [List.getLast?_cons_cons]
        apply ih
        rw [hq]
        exact h

theorem patchToml_eq (c n v : Str) :
    patchToml c n v
      = joinLines ((patchLinesGo n v ⟨false, false, false⟩ (rustLines c)).2) := rfl

/-- Idempotence of the patch transformation on inputs whose line
structure survives the `lines`/`join` round trip. -/
theorem patchToml_idem (content n v : Str)
    (hcr : '\r' ∉ content) (hnv : '\n' ∉ v)
    (hlast : (rustLines content).getLast? ≠ some []) :
    patchToml (patchToml content n v) n v = patchToml content n v := by
  have hLnl : ∀ l ∈ rustLines content, '\n' ∉ l := fun l hl => rustLines_nl_not_mem hl
  have hLcr : ∀ l ∈ rustLines content, l.getLast? ≠ some '\r' := by
    intro l hl
    apply getLast?_ne_cr_of_not_mem
    intro hmem
    exact hcr (rustLines_subset hl '\r' hmem)
  rcases houts : (patchLinesGo n v ⟨false, false, false⟩ (rustLines content)).2
    with _ | ⟨o0, os⟩
  · rw [patchToml_eq content n v, houts]
    rfl
  · have houts2 : (patchLinesGo n v ⟨false, false, false⟩ (rustLines content)).2 ≠ [] := by
      rw [houts]; simp
    rcases hlastq : (o0 :: os).getLast? with _ | el
    · simp at hlastq
    · have hlast_outs : (patchLinesGo n v ⟨false, false, false⟩
          (rustLines content)).2.getLast? = some el := by rw [houts]; exact hlastq
      have hel_ne : el ≠ [] := by
        intro hel
        subst hel
        exact hlast (patchLinesGo_last_nil n v (rustLines content) _ hlast_outs)
      have hnl_outs : ∀ out ∈ (patchLinesGo n v ⟨false, false, false⟩
          (rustLines content)).2, '\n' ∉ out :=
        patchLinesGo_out_nl n v (rustLines content) _ hLnl hnv
      have hcr_outs : ∀ out ∈ (patchLinesGo n v ⟨false, false, false⟩
          (rustLines content)).2, out.getLast? ≠ some '\r' :=
        patchLinesGo_out_last_cr n v (rustLines content) _ hLcr
      have hround : rustLines (joinLines ((patchLinesGo n v ⟨false, false, false⟩
          (rustLines content)).2)) = (patchLinesGo n v ⟨false, false, false⟩
          (rustLines content)).2 :=
        rustLines_joinLines _ el hlast_outs hel_ne hnl_outs hcr_outs
      rw [patchToml_eq content n v, patchToml_eq, hround]
      rw [patchLinesGo_stable n v (rustLines content) ⟨false, false, false⟩
        ⟨false, false, false⟩ (Or.inl rfl) ⟨rfl, rfl⟩]

/-! ## Claim C7 -/

/-- C7 (counterexample): the manifest-patch operation is **not**
idempotent for every manifest content, dependency name and version.
Three concrete refutations: a manifest containing `\r\r\n`, a version
string containing a newline, and a manifest ending in a blank line all
make the second application change bytes again (the rewrite joins lines
with `\n`, so the first application already normalises line structure
in ways a second pass does not reproduce). -/
theorem C7_counterexample :
    patchToml (patchToml "x\r\r\ny".data "foo".data "1.0".data) "foo".data "1.0".data
      ≠ patchToml "x\r\r\ny".data "foo".data "1.0".data ∧
    patchToml (patchToml "[dependencies]\nfoo = \"1\"".data "foo".data "0\nx".data)
        "foo".data "0\nx".data
      ≠ patchToml "[dependencies]\nfoo = \"1\"".data "foo".data "0\nx".data ∧
    patchToml (patchToml "a = \"1\"\n\n".data "foo".data "1.0".data) "foo".data "1.0".data
      ≠ patchToml "a = \"1\"\n\n".data "foo".data "1.0".data :=
  ⟨by decide, by decide, by decide⟩

/-- C7 (amended): the patch transformation is idempotent — applying it
to its own output is a bytewise no-op — for every manifest content that
contains no carriage return and does not end in an empty final line,
and every dependency name and every version containing no newline. -/
theorem C7_patch_idempotent (content depName depVersion : Str)
    (hcr : '\r' ∉ content) (hv : '\n' ∉ depVersion)
    (hlast : (rustLines content).getLast? ≠ some []) :
    patchToml (patchToml content depName depVersion) depName depVersion
      = patchToml content depName depVersion :=
  patchToml_idem content depName depVersion hcr hv hlast

/-- Witness for C7: the idempotence theorem applied to a concrete
manifest with both dependency spellings present. -/
theorem C7_witness :
    ('\r' ∉ "[dependencies]\nfoo = \"1.0\"\n[dependencies.bar]\nversion = \"2\"".data) ∧
    ('\n' ∉ "1.2.3".data) ∧
    ((rustLines "[dependencies]\nfoo = \"1.0\"\n[dependencies.bar]\nversion = \"2\"".data).getLast?
      ≠ some []) ∧
    patchToml (patchToml "[dependencies]\nfoo = \"1.0\"\n[dependencies.bar]\nversion = \"2\"".data
        "foo".data "1.2.3".data) "foo".data "1.2.3".data
      = patchToml "[dependencies]\nfoo = \"1.0\"\n[dependencies.bar]\nversion = \"2\"".data
        "foo".data "1.2.3".data :=
  ⟨by decide, by decide, by decide,
    C7_patch_idempotent _ _ _ (by decide) (by decide) (by decide)⟩

/-! ## Claim C8 -/

/-- C8 (counterexample): with the dependency absent (the scan's
`modified` flag stays `false`), the patch operation still **writes**
the manifest whenever joining the lines with `\n` changes its bytes
(here a trailing newline is lost), and it returns `Some(original)`,
not `None`. -/
theorem C8_counterexample :
    (patch_dependency_version_in_toml "a = \"1\"\n".data "foo".data "2".data).2 = false ∧
    patch_cargo_toml_with_parent (some "a = \"1\"\n".data) "foo".data "2".data
      = .ok (some "a = \"1\"\n".data, "a = \"1\"".data, true) :=
  ⟨by decide, rfl⟩

/-- C8 (amended): when the named dependency does not occur in the
manifest's `[dependencies]` table or `[dependencies.<name>]` sub-table
(the scan modifies no line), every line is preserved — the new content
is exactly the old lines re-joined with `\n` — the file is written iff
that line-ending normalisation changes the bytes, and the operation
returns `Some` of the original contents. -/
theorem C8_patch_absent (content depName depVersion : Str)
    (hmod : (patch_dependency_version_in_toml content depName depVersion).2 = false) :
    patchToml content depName depVersion = joinLines (rustLines content) ∧
    patch_single_dependency (some content) depName depVersion
      = .ok (joinLines (rustLines content),
          decide (joinLines (rustLines content) ≠ content)) ∧
    patch_cargo_toml_with_parent (some content) depName depVersion
      = .ok (some content, joinLines (rustLines content),
          decide (joinLines (rustLines content) ≠ content)) := by
  have hmod2 : (patchLinesGo depName depVersion ⟨false, false, false⟩
      (rustLines content)).1.modified = false := hmod
  have hid := patchLinesGo_id_of_not_modified depName depVersion (rustLines content)
    ⟨false, false, false⟩ hmod2
  have h1 : patchToml content depName depVersion = joinLines (rustLines content) := by
    rw [patchToml_eq, hid]
  refine ⟨h1, ?_, ?_⟩
  · simp only [patch_single_dependency, h1]
  · simp only [patch_cargo_toml_with_parent, patch_single_dependency, h1]

/-- Witness for C8: a manifest with a trailing newline and no `foo`
dependency entry — the normalised content differs from the original, so
the write flag is `true` and the original is returned. -/
theorem C8_witness :
    ((patch_dependency_version_in_toml "a = \"1\"\n".data "foo".data "9".data).2 = false) ∧
    patchToml "a = \"1\"\n".data "foo".data "9".data
      = joinLines (rustLines "a = \"1\"\n".data) ∧
    patch_single_dependency (some "a = \"1\"\n".data) "foo".data "9".data
      = .ok (joinLines (rustLines "a = \"1\"\n".data),
          decide (joinLines (rustLines "a = \"1\"\n".data) ≠ "a = \"1\"\n".data)) ∧
    patch_cargo_toml_with_parent (some "a = \"1\"\n".data) "foo".data "9".data
      = .ok (some "a = \"1\"\n".data, joinLines (rustLines "a = \"1\"\n".data),
          decide (joinLines (rustLines "a = \"1\"\n".data) ≠ "a = \"1\"\n".data)) := by
  refine ⟨by decide, ?_⟩
  have h := C8_patch_absent "a = \"1\"\n".data "foo".data "9".data (by decide)
  exact h

/-! ## Claim C6 -/

theorem pollFrom_iff (f : Nat → Bool) :
    ∀ (r i : Nat), pollFrom f i r = true ↔ ∃ j, j < r ∧ f (i + j) = true := by
  intro r
  induction r with
  | zero => intro i; simp [pollFrom]
  | succ r ih =>
    intro i
    simp only [pollFrom]
    by_cases hfi : f i = true
    · simp only [hfi, if_pos]
      constructor
      · intro _; exact ⟨0, by omega, by simpa using hfi⟩
      · intro _; trivial
    · rw [if_neg hfi, ih (i + 1)]
      constructor
      · rintro ⟨j, hj, hfj⟩
        refine ⟨j + 1, by omega, ?_⟩
        have h2 : i + (j + 1) = i + 1 + j := by omega
        rw [h2]
        exact hfj
      · rintro ⟨j, hj, hfj⟩
        cases j with
        | zero => exact absurd (by simpa using hfj) hfi
        | succ j2 =>
          refine ⟨j2, by omega, ?_⟩
          have h2 : i + 1 + j2 = i + (j2 + 1) := by omega
          rw [h2]
          exact hfj

/-- C6 (counterexample): the in-flight set stores the formatted
`name-version` string, so two **different** PkgIds whose keys collide —
`("a-b", "c")` and `("a", "b-c")` — block each other: with the second
in flight and the directory never appearing, inserting the first fails
with the wait-timeout error although no equal PkgId is present,
refuting "inserting a PkgId succeeds iff no equal PkgId is present". -/
theorem C6_counterexample :
    (⟨"a-b".data, "c".data⟩ : Krate) ≠ (⟨"a".data, "b-c".data⟩ : Krate) ∧
    crateKey ⟨"a-b".data, "c".data⟩ = crateKey ⟨"a".data, "b-c".data⟩ ∧
    (acquire_crate_lock [crateKey ⟨"a".data, "b-c".data⟩]
      (crateKey ⟨"a-b".data, "c".data⟩) (fun _ => false)).1 = .error () :=
  ⟨by decide, by decide, rfl⟩

/-- C6 (amended): the per-key in-flight lock behaves as claimed at the
level of the formatted `name-version` key (distinct PkgIds with equal
keys excepted): insertion succeeds iff no equal key is present and then
records the key; a caller that fails to insert leaves the set untouched
and polls at most 40 times (500 ms apart, ≈ 20 s), returning the
directory iff it appears at some poll and failing with the wait-timeout
error iff it never does; and the inserter's key is removed once its
download-and-extract work finishes, whether that work succeeded or
failed. -/
theorem C6_lock_discipline :
    (∀ (s : List Str) (k : Str) (f : Nat → Bool),
      ((acquire_crate_lock s k f).1 = .ok true ↔ k ∉ s)) ∧
    (∀ (s : List Str) (k : Str) (f : Nat → Bool), k ∉ s →
      (acquire_crate_lock s k f).2 = k :: s) ∧
    (∀ (s : List Str) (k : Str) (f : Nat → Bool), k ∈ s →
      (acquire_crate_lock s k f).2 = s ∧
      ((acquire_crate_lock s k f).1 = .ok false ↔ ∃ j, j < 40 ∧ f j = true) ∧
      ((acquire_crate_lock s k f).1 = .error () ↔ ∀ j, j < 40 → f j = false)) ∧
    (∀ (kr : Krate) (s : List Str) (f : Nat → Bool) (w : Bool), crateKey kr ∉ s →
      (get_crate_dir_path kr s false f w).2 = s) := by
  refine ⟨?_, ?_, ?_, ?_⟩
  · intro s k f
    unfold acquire_crate_lock
    by_cases hk : k ∈ s
    · rw [if_pos hk]
      constructor
      · intro h
        split at h <;> simp_all
      · intro h; exact absurd hk h
    · rw [if_neg hk]
      simp [hk]
  · intro s k f hk
    unfold acquire_crate_lock
    rw [if_neg hk]
  · intro s k f hk
    unfold acquire_crate_lock
    rw [if_pos hk]
    refine ⟨rfl, ?_, ?_⟩
    · constructor
      · intro h
        have hp : pollFrom f 0 40 = true := by
          by_contra hc
          rw [if_neg hc] at h
          exact absurd h (by simp)
        have := (pollFrom_iff f 40 0).mp hp
        simpa using this
      · rintro ⟨j, hj, hfj⟩
        have hp : pollFrom f 0 40 = true :=
          (pollFrom_iff f 40 0).mpr ⟨j, hj, by simpa using hfj⟩
        rw [if_pos hp]
    · constructor
      · intro h j hj
        by_contra hc
        have hp : pollFrom f 0 40 = true :=
          (pollFrom_iff f 40 0).mpr ⟨j, hj, by simpa using hc⟩
        rw [if_pos hp] at h
        exact absurd h (by simp)
      · intro h
        have hp : pollFrom f 0 40 = false := by
          by_contra hc
          have hp2 : pollFrom f 0 40 = true := by
            revert hc; cases pollFrom f 0 40 <;> simp
          rcases (pollFrom_iff f 40 0).mp hp2 with ⟨j, hj, hfj⟩
          have h0 : (0 : Nat) + j = j := by omega
          rw [h0] at hfj
          rw [h j hj] at hfj
          exact absurd hfj (by simp)
        rw [if_neg (by simp [hp])]
  · intro kr s f w hk
    simp [get_crate_dir_path, acquire_crate_lock, release_crate_lock, hk,
      List.erase_cons_head]

/-- Witness for C6: the lock-discipline theorem applied at concrete
inputs — an empty in-flight set (insertion succeeds), a conflicting key
observed at poll 5 (waiter succeeds), and an inserter whose work fails
(key still removed). -/
theorem C6_witness :
    (acquire_crate_lock [] "x".data (fun _ => false)).1 = .ok true ∧
    (acquire_crate_lock [] "x".data (fun _ => false)).2 = ["x".data] ∧
    (acquire_crate_lock ["x".data] "x".data (fun i => decide (i = 5))).1 = .ok false ∧
    (acquire_crate_lock ["x".data] "x".data (fun _ => false)).1 = .error () ∧
    (get_crate_dir_path ⟨"a".data, "b".data⟩ [] false (fun _ => false) false).2 = [] :=
  ⟨(C6_lock_discipline.1 [] "x".data (fun _ => false)).mpr (by decide),
    C6_lock_discipline.2.1 [] "x".data (fun _ => false) (by decide),
    (C6_lock_discipline.2.2.1 ["x".data] "x".data (fun i => decide (i = 5))
      (by decide)).2.1.mpr ⟨5, by decide, by decide⟩,
    (C6_lock_discipline.2.2.1 ["x".data] "x".data (fun _ => false)
      (by decide)).2.2.mpr (fun j _ => rfl),
    C6_lock_discipline.2.2.2 ⟨"a".data, "b".data⟩ [] (fun _ => false) false (by decide)⟩

/-! ## Claim C4 -/

/-- A concrete call-analysis environment: the crate's sources do not
mention the target identifier, downloads succeed, and the tool's
`--quiet` run produces a `callers.json` with `total_callers = 2`. -/
def envC4 : CallEnv :=
  { downloadOk := true
    cdOk := true
    srcFiles := ["fn other_thing()".data]
    quietSpawnOk := true
    quietExitOk := true
    targetDirAfterQuiet := true
    callersFileQuiet := some "R".data
    altSpawnOk := true
    altExitOk := true
    targetDirAfterAlt := true
    callersFileAlt := none
    parseTotal := fun c => if c = "R".data then some 2 else none }

/-- C4 (counterexample): `check_function_call` has no textual
pre-filter.  For a package whose sources do not contain the bare
identifier `bar` of `foo::bar`, the external tool is still spawned
(spawn count 1, not 0) and the analysis even returns a positive report
— there is no `NotApplicable` short-circuit. -/
theorem C4_counterexample :
    sourceMentionsIdent envC4 "foo::bar".data = false ∧
    (check_function_call envC4).2 ≠ 0 ∧
    (check_function_call envC4).1 = some "R".data := by
  refine ⟨by decide, ?_, ?_⟩ <;> decide

/-- C4 (amended): the analyser performs no textual pre-filter: its
entire behaviour is independent of the crate's source files, and
whenever the crate was materialised and entered successfully the
external call-graph tool is spawned at least once, whether or not the
identifier occurs in the sources. -/
theorem C4_no_prefilter (env : CallEnv) :
    (∀ files, check_function_call { env with srcFiles := files }
      = check_function_call env) ∧
    (env.downloadOk = true → env.cdOk = true →
      1 ≤ (check_function_call env).2) := by
  constructor
  · intro files
    rfl
  · intro h1 h2
    rcases env with ⟨dl, cd, src, qs, qe, tq, cfq, altS, altE, ta, cfa, pt⟩
    simp only [] at h1 h2
    subst h1
    subst h2
    cases qs <;> cases qe <;> cases tq <;> cases cfq <;> cases altS <;> cases altE <;>
        cases ta <;> cases cfa <;>
      simp [check_function_call, readCallersReport]

/-- Witness for C4: the no-pre-filter theorem applied to the concrete
environment, discharging the materialisation hypotheses. -/
theorem C4_witness :
    check_function_call { envC4 with srcFiles := [] } = check_function_call envC4 ∧
    1 ≤ (check_function_call envC4).2 :=
  ⟨(C4_no_prefilter envC4).1 [], (C4_no_prefilter envC4).2 rfl rfl⟩

/-! ## Traversal lemmas -/

/-- Count of `enqueue` events for one package in a trace. -/
def enqCount (tr : List TraceEvent) (p : Str × Str) : Nat :=
  tr.countP (fun e => e = TraceEvent.enqueue p.1 p.2)

/-- Does the trace event patch a manifest? -/
def isPatchEvent : TraceEvent → Bool
  | .patchManifest _ _ => true
  | _ => false

/-- The Bool predicate of claim C1 as stated: scanning left to right,
every `enqueue` of a dependent must be preceded by a successful
manifest patch of that dependent. -/
def enqueueAfterPatchGuard : List (Str × Str) → List TraceEvent → Bool
  | _, [] => true
  | seen, .patchManifest nm vr :: tr => enqueueAfterPatchGuard ((nm, vr) :: seen) tr
  | seen, .enqueue nm vr :: tr =>
    seen.contains (nm, vr) && enqueueAfterPatchGuard seen tr
  | seen, _ :: tr => enqueueAfterPatchGuard seen tr

/-- The amended guard: every `enqueue` of a dependent is preceded by a
positive call analysis of that dependent. -/
def enqueueAfterAnalyseGuard : List (Str × Str) → List TraceEvent → Bool
  | _, [] => true
  | seen, .analyse nm vr true :: tr => enqueueAfterAnalyseGuard ((nm, vr) :: seen) tr
  | seen, .enqueue nm vr :: tr =>
    seen.contains (nm, vr) && enqueueAfterAnalyseGuard seen tr
  | seen, _ :: tr => enqueueAfterAnalyseGuard seen tr

/-- Does this reverse-dependency record match the analysed version and
call the target function?  The per-record test of the dependents loop. -/
def recValid (env : AnalyzerEnv) (cv : Str) (rec : Str × Str × Str) : Bool :=
  match env.parseVersion cv, env.parseReq rec.2.2 with
  | some pv, some r => env.reqMatches r pv && (env.checkCall rec.1 rec.2.1).isSome
  | _, _ => false

/-- Does some reverse-dependency record of this node match the analysed
version and call the target function?  (The loop's
`has_valid_dependents`.) -/
def validDependentExists (env : AnalyzerEnv) (nm vr : Str) : Bool :=
  (env.queryDependents nm).any (recValid env vr)

theorem scanDependents_visited_mono (env : AnalyzerEnv) (cv : Str) :
    ∀ (deps : List (Str × Str × Str)) (visited : List (Str × Str)),
      visited ⊆ (scanDependents env cv visited deps).visited := by
  intro deps
  induction deps with
  | nil => intro visited; exact fun x hx => hx
  | cons rec rest ih =>
    intro visited
    rcases rec with ⟨dn, dv, req⟩
    simp only [scanDependents]
    rcases hpv : env.parseVersion cv with _ | pv <;>
      rcases hr : env.parseReq req with _ | r <;>
      simp only [hpv, hr]
    · exact ih visited
    · exact ih visited
    · exact ih visited
    · by_cases hm : env.reqMatches r pv = true
      · rw [if_pos hm]
        rcases hc : env.checkCall dn dv with _ | c <;> simp only [hc]
        · exact ih visited
        · by_cases hv : (dn, dv) ∈ visited
          · rw [if_pos hv]
            exact ih visited
          · rw [if_neg hv]
            exact fun x hx => ih ((dn, dv) :: visited) (List.mem_cons_of_mem _ hx)
      · rw [if_neg hm]
        exact ih visited

theorem scanDependents_enqCount (env : AnalyzerEnv) (cv : Str) :
    ∀ (deps : List (Str × Str × Str)) (visited : List (Str × Str)) (p : Str × Str),
      enqCount (scanDependents env cv visited deps).events p ≤ 1 ∧
      (p ∈ visited → enqCount (scanDependents env cv visited deps).events p = 0) ∧
      (1 ≤ enqCount (scanDependents env cv visited deps).events p →
        p ∈ (scanDependents env cv visited deps).visited) := by
  intro deps
  induction deps with
  | nil =>
    intro visited p
    refine ⟨by simp [scanDependents, enqCount], fun _ => by simp [scanDependents, enqCount],
      fun h => absurd h (by simp [scanDependents, enqCount])⟩
  | cons rec rest ih =>
    intro visited p
    rcases rec with ⟨dn, dv, req⟩
    simp only [scanDependents]
    rcases hpv : env.parseVersion cv with _ | pv <;>
      rcases hr : env.parseReq req with _ | r <;>
      simp only [hpv, hr]
    · exact ih visited p
    · exact ih visited p
    · exact ih visited p
    · by_cases hm : env.reqMatches r pv = true
      · rw [if_pos hm]
        rcases hc : env.checkCall dn dv with _ | c <;> simp only [hc]
        · have h0 := ih visited p
          refine ⟨?_, fun hp => ?_, fun h1 => ?_⟩
          · simpa [enqCount, List.countP_cons] using h0.1
          · simpa [enqCount, List.countP_cons] using h0.2.1 hp
          · exact h0.2.2 (by simpa [enqCount, List.countP_cons] using h1)
        · by_cases hv : (dn, dv) ∈ visited
          · rw [if_pos hv]
            have h0 := ih visited p
            refine ⟨?_, fun hp => ?_, fun h1 => ?_⟩
            · simpa [enqCount, List.countP_cons] using h0.1
            · simpa [enqCount, List.countP_cons] using h0.2.1 hp
            · exact h0.2.2 (by simpa [enqCount, List.countP_cons] using h1)
          · rw [if_neg hv]
            have h0 := ih ((dn, dv) :: visited) p
            by_cases hp : p = (dn, dv)
            · subst hp
              have hz : enqCount (scanDependents env cv ((dn, dv) :: visited) rest).events
                  (dn, dv) = 0 := h0.2.1 (List.mem_cons_self _ _)
              refine ⟨?_, fun hmem => absurd hmem hv, fun _ => ?_⟩
              · simp only [enqCount] at hz
                simp [enqCount, List.countP_cons, hz]
              · exact scanDependents_visited_mono env cv rest ((dn, dv) :: visited)
                  (List.mem_cons_self _ _)
            · have hne : ¬(TraceEvent.enqueue dn dv = TraceEvent.enqueue p.1 p.2) := by
                intro hcon
                apply hp
                cases hcon
                rfl
              refine ⟨?_, fun hmem => ?_, fun h1 => ?_⟩
              · simpa [enqCount, List.countP_cons, hne] using h0.1
              · have := h0.2.1 (List.mem_cons_of_mem _ hmem)
                simpa [enqCount, List.countP_cons, hne] using this
              · exact h0.2.2 (by simpa [enqCount, List.countP_cons, hne] using h1)
      · rw [if_neg hm]
        exact ih visited p

theorem scanDependents_guard (env : AnalyzerEnv) (cv : Str) :
    ∀ (deps : List (Str × Str × Str)) (visited : List (Str × Str))
      (seen : List (Str × Str)),
      enqueueAfterAnalyseGuard seen (scanDependents env cv visited deps).events = true := by
  intro deps
  induction deps with
  | nil => intro visited seen; simp [scanDependents, enqueueAfterAnalyseGuard]
  | cons rec rest ih =>
    intro visited seen
    rcases rec with ⟨dn, dv, req⟩
    simp only [scanDependents]
    rcases hpv : env.parseVersion cv with _ | pv <;>
      rcases hr : env.parseReq req with _ | r <;>
      simp only [hpv, hr]
    · exact ih visited seen
    · exact ih visited seen
    · exact ih visited seen
    · by_cases hm : env.reqMatches r pv = true
      · rw [if_pos hm]
        rcases hc : env.checkCall dn dv with _ | c <;> simp only [hc]
        · exact ih visited seen
        · by_cases hv : (dn, dv) ∈ visited
          · rw [if_pos hv]
            simp only [List.append_eq, List.cons_append, List.nil_append,
              enqueueAfterAnalyseGuard]
            exact ih visited ((dn, dv) :: seen)
          · rw [if_neg hv]
            simp only [List.append_eq, List.cons_append, List.nil_append,
              enqueueAfterAnalyseGuard]
            rw [List.contains_cons]
            simp only [beq_self_eq_true, Bool.true_or, Bool.true_and]
            exact ih ((dn, dv) :: visited) ((dn, dv) :: seen)
      · rw [if_neg hm]
        exact ih visited seen

theorem scanDependents_no_patch (env : AnalyzerEnv) (cv : Str) :
    ∀ (deps : List (Str × Str × Str)) (visited : List (Str × Str)),
      (scanDependents env cv visited deps).events.all (fun e => !isPatchEvent e) = true := by
  intro deps
  induction deps with
  | nil => intro visited; simp [scanDependents]
  | cons rec rest ih =>
    intro visited
    rcases rec with ⟨dn, dv, req⟩
    simp only [scanDependents]
    rcases hpv : env.parseVersion cv with _ | pv <;>
      rcases hr : env.parseReq req with _ | r <;>
      simp only [hpv, hr]
    · exact ih visited
    · exact ih visited
    · exact ih visited
    · by_cases hm : env.reqMatches r pv = true
      · rw [if_pos hm]
        rcases hc : env.checkCall dn dv with _ | c <;> simp only [hc]
        · simpa [isPatchEvent] using ih visited
        · by_cases hv : (dn, dv) ∈ visited
          · rw [if_pos hv]
            simpa [isPatchEvent] using ih visited
          · rw [if_neg hv]
            simpa [isPatchEvent] using ih ((dn, dv) :: visited)
      · rw [if_neg hm]
        exact ih visited

theorem scanDependents_hasValid (env : AnalyzerEnv) (cv : Str) :
    ∀ (deps : List (Str × Str × Str)) (visited : List (Str × Str)),
      (scanDependents env cv visited deps).hasValid
        = deps.any (recValid env cv) := by
  intro deps
  induction deps with
  | nil => intro visited; simp [scanDependents]
  | cons rec rest ih =>
    intro visited
    rcases rec with ⟨dn, dv, req⟩
    rw [List.any_cons]
    simp only [scanDependents]
    rcases hpv : env.parseVersion cv with _ | pv <;>
      rcases hr : env.parseReq req with _ | r <;>
      simp only [hpv, hr]
    · have hhead : recValid env cv (dn, dv, req) = false := by
        simp [recValid, hpv, hr]
      rw [hhead, Bool.false_or]
      exact ih visited
    · have hhead : recValid env cv (dn, dv, req) = false := by
        simp [recValid, hpv, hr]
      rw [hhead, Bool.false_or]
      exact ih visited
    · have hhead : recValid env cv (dn, dv, req) = false := by
        simp [recValid, hpv, hr]
      rw [hhead, Bool.false_or]
      exact ih visited
    · by_cases hm : env.reqMatches r pv = true
      · rw [if_pos hm]
        rcases hc : env.checkCall dn dv with _ | c <;> simp only [hc]
        · have hhead : recValid env cv (dn, dv, req) = false := by
            simp [recValid, hpv, hr, hc]
          rw [hhead, Bool.false_or]
          exact ih visited
        · have hhead : recValid env cv (dn, dv, req) = true := by
            simp [recValid, hpv, hr, hc, hm]
          rw [hhead, Bool.true_or]
          by_cases hv : (dn, dv) ∈ visited
          · rw [if_pos hv]
          · rw [if_neg hv]
      · rw [if_neg hm]
        have hhead : recValid env cv (dn, dv, req) = false := by
          simp [recValid, hpv, hr, hm]
        rw [hhead, Bool.false_or]
        exact ih visited

theorem scanDependents_recorded_nil (env : AnalyzerEnv) (cv : Str) :
    ∀ (deps : List (Str × Str × Str)) (visited : List (Str × Str)),
      (scanDependents env cv visited deps).hasValid = false →
      (scanDependents env cv visited deps).recorded = [] := by
  intro deps
  induction deps with
  | nil => intro visited _; rfl
  | cons rec rest ih =>
    intro visited h
    rcases rec with ⟨dn, dv, req⟩
    simp only [scanDependents] at h ⊢
    rcases hpv : env.parseVersion cv with _ | pv <;>
      rcases hr : env.parseReq req with _ | r <;>
      simp only [hpv, hr] at h ⊢
    · exact ih visited h
    · exact ih visited h
    · exact ih visited h
    · by_cases hm : env.reqMatches r pv = true
      · rw [if_pos hm] at h ⊢
        rcases hc : env.checkCall dn dv with _ | c <;> simp only [hc] at h ⊢
        · exact ih visited h
        · by_cases hv : (dn, dv) ∈ visited
          · rw [if_pos hv] at h
            simp at h
          · rw [if_neg hv] at h
            simp at h
      · rw [if_neg hm] at h ⊢
        exact ih visited h

theorem bfsRun_empty (env : AnalyzerEnv) (n : Nat) (s : BfsState)
    (h : s.queue = []) : bfsRun env n s = s := by
  cases n with
  | zero => rfl
  | succ n => simp only [bfsRun, h]

theorem bfsRun_add (env : AnalyzerEnv) :
    ∀ (a b : Nat) (s : BfsState), bfsRun env (a + b) s = bfsRun env b (bfsRun env a s) := by
  intro a
  induction a with
  | zero => intro b s; rw [Nat.zero_add]; rfl
  | succ a ih =>
    intro b s
    rcases hq : s.queue with _ | ⟨c, rest⟩
    · rw [bfsRun_empty env _ s hq, bfsRun_empty env _ s hq, bfsRun_empty env _ s hq]
    · have h1 : bfsRun env (a + 1) s = bfsRun env a (bfsStep env s) := by
        simp only [bfsRun, hq]
      have h2 : a + 1 + b = (a + b) + 1 := by omega
      rw [h2]
      have h3 : bfsRun env ((a + b) + 1) s = bfsRun env (a + b) (bfsStep env s) := by
        simp only [bfsRun, hq]
      rw [h3, h1, ih b (bfsStep env s)]

theorem bfsStep_visited_mono (env : AnalyzerEnv) (s : BfsState) :
    s.visited ⊆ (bfsStep env s).visited := by
  rcases hq : s.queue with _ | ⟨⟨cn, cv⟩, rest⟩
  · simp only [bfsStep, hq]
    exact fun x hx => hx
  · simp only [bfsStep, hq]
    exact scanDependents_visited_mono env cv _ s.visited

theorem bfsRun_visited_mono (env : AnalyzerEnv) :
    ∀ (n : Nat) (s : BfsState), s.visited ⊆ (bfsRun env n s).visited := by
  intro n
  induction n with
  | zero => intro s; exact fun x hx => hx
  | succ n ih =>
    intro s
    rcases hq : s.queue with _ | ⟨c, rest⟩
    · rw [bfsRun_empty env _ s hq]
      exact fun x hx => hx
    · have h1 : bfsRun env (n + 1) s = bfsRun env n (bfsStep env s) := by
        simp only [bfsRun, hq]
      rw [h1]
      exact fun x hx => ih (bfsStep env s) (bfsStep_visited_mono env s hx)

/-- The pairs a trace prefix adds to the analyse-guard's seen set. -/
def guardSeen (seen : List (Str × Str)) : List TraceEvent → List (Str × Str)
  | [] => seen
  | .analyse nm vr true :: tr => guardSeen ((nm, vr) :: seen) tr
  | _ :: tr => guardSeen seen tr

theorem guard_append :
    ∀ (t1 t2 : List TraceEvent) (seen : List (Str × Str)),
      enqueueAfterAnalyseGuard seen (t1 ++ t2)
        = (enqueueAfterAnalyseGuard seen t1 &&
            enqueueAfterAnalyseGuard (guardSeen seen t1) t2) := by
  intro t1
  induction t1 with
  | nil => intro t2 seen; simp [enqueueAfterAnalyseGuard, guardSeen]
  | cons e tr ih =>
    intro t2 seen
    cases e with
    | processNode nm vr =>
      simp only [List.cons_append, enqueueAfterAnalyseGuard, guardSeen]
      exact ih t2 seen
    | analyse nm vr pos =>
      cases pos with
      | true =>
        simp only [List.cons_append, enqueueAfterAnalyseGuard, guardSeen]
        exact ih t2 ((nm, vr) :: seen)
      | false =>
        simp only [List.cons_append, enqueueAfterAnalyseGuard, guardSeen]
        exact ih t2 seen
    | enqueue nm vr =>
      simp only [List.cons_append, enqueueAfterAnalyseGuard, guardSeen]
      rw [show tr.append t2 = tr ++ t2 from rfl, ih t2 seen]
      rw [Bool.and_assoc]
    | emitFile nm vr c =>
      simp only [List.cons_append, enqueueAfterAnalyseGuard, guardSeen]
      exact ih t2 seen
    | patchManifest nm vr =>
      simp only [List.cons_append, enqueueAfterAnalyseGuard, guardSeen]
      exact ih t2 seen

theorem bfsRun_inv (env : AnalyzerEnv) (P : BfsState → Prop)
    (hstep : ∀ s, P s → P (bfsStep env s)) :
    ∀ (n : Nat) (s : BfsState), P s → P (bfsRun env n s) := by
  intro n
  induction n with
  | zero => intro s h; exact h
  | succ n ih =>
    intro s h
    rcases hq : s.queue with _ | ⟨c, rest⟩
    · rw [bfsRun_empty env _ s hq]; exact h
    · have h1 : bfsRun env (n + 1) s = bfsRun env n (bfsStep env s) := by
        simp only [bfsRun, hq]
      rw [h1]
      exact ih (bfsStep env s) (hstep s h)

/-- The `(name, version)` arguments of the `analyse` events of a trace. -/
def analysesOf (tr : List TraceEvent) : List (Str × Str) :=
  tr.filterMap (fun e => match e with
    | .analyse nm vr _ => some (nm, vr)
    | _ => none)

theorem processBatch_files_eq (env : AnalyzerEnv) :
    ∀ (nds : List DependencyNode),
      (processBatch env nds).1
        = nds.filterMap (fun nd => match env.checkCall nd.name nd.version with
            | some c => some (nd.name, nd.version, c)
            | none => none) := by
  intro nds
  induction nds with
  | nil => rfl
  | cons nd rest ih =>
    simp only [processBatch, process_leaf_node, List.filterMap_cons]
    rcases hc : env.checkCall nd.name nd.version with _ | c <;> simp only [hc]
    · simpa using ih
    · simpa using ih

theorem processBatch_trace_props (env : AnalyzerEnv) :
    ∀ (nds : List DependencyNode),
      (processBatch env nds).2.all (fun e => !isPatchEvent e) = true ∧
      (∀ seen, enqueueAfterAnalyseGuard seen (processBatch env nds).2 = true) ∧
      (∀ p, enqCount (processBatch env nds).2 p = 0) ∧
      analysesOf (processBatch env nds).2
        = nds.map (fun nd => (nd.name, nd.version)) ∧
      (∀ d dv, TraceEvent.enqueue d dv ∉ (processBatch env nds).2) := by
  intro nds
  induction nds with
  | nil =>
    refine ⟨rfl, fun seen => rfl, fun p => rfl, rfl, fun d dv h => ?_⟩
    simp [processBatch] at h
  | cons nd rest ih =>
    rcases ih with ⟨ih1, ih2, ih3, ih4, ih5⟩
    simp only [processBatch, process_leaf_node]
    rcases hc : env.checkCall nd.name nd.version with _ | c <;> simp only [hc]
    · refine ⟨?_, fun seen => ?_, fun p => ?_, ?_, fun d dv h => ?_⟩
      · simpa [isPatchEvent] using ih1
      · simp only [List.cons_append, List.nil_append, enqueueAfterAnalyseGuard]
        exact ih2 seen
      · simpa [enqCount, List.countP_cons] using ih3 p
      · simp only [List.cons_append, List.nil_append, analysesOf, List.filterMap_cons]
        simpa [analysesOf] using ih4
      · simp only [List.cons_append, List.nil_append, List.mem_cons] at h
        rcases h with hcon | h
        · exact absurd hcon (by simp)
        · exact ih5 d dv h
    · refine ⟨?_, fun seen => ?_, fun p => ?_, ?_, fun d dv h => ?_⟩
      · simpa [isPatchEvent] using ih1
      · simp only [List.cons_append, List.nil_append, enqueueAfterAnalyseGuard]
        exact ih2 ((nd.name, nd.version) :: seen)
      · simpa [enqCount, List.countP_cons] using ih3 p
      · simp only [List.cons_append, List.nil_append, analysesOf, List.filterMap_cons]
        simpa [analysesOf] using ih4
      · simp only [List.cons_append, List.nil_append, List.mem_cons] at h
        rcases h with hcon | h
        · exact absurd hcon (by simp)
        · rcases h with hcon | h
          · exact absurd hcon (by simp)
          · exact ih5 d dv h

theorem processBatch_no_process (env : AnalyzerEnv) :
    ∀ (nds : List DependencyNode) (nm v2 : Str),
      TraceEvent.processNode nm v2 ∉ (processBatch env nds).2 := by
  intro nds
  induction nds with
  | nil => intro nm v2 h; simp [processBatch] at h
  | cons nd rest ih =>
    intro nm v2 h
    simp only [processBatch, process_leaf_node] at h
    rcases hc : env.checkCall nd.name nd.version with _ | c <;> rw [hc] at h <;>
      simp only [List.cons_append, List.nil_append, List.mem_cons] at h
    · rcases h with hcon | h
      · exact absurd hcon (by simp)
      · exact ih nm v2 h
    · rcases h with hcon | h
      · exact absurd hcon (by simp)
      · rcases h with hcon | h
        · exact absurd hcon (by simp)
        · exact ih nm v2 h

theorem drainChunk_subset (i npt : Nat) (v batch v2 : List DependencyNode)
    (h : drainChunk i npt v = some (batch, v2)) :
    batch ⊆ v ∧ v2 ⊆ v := by
  unfold drainChunk at h
  by_cases hle : i * npt ≤ v.length
  · rw [if_pos hle] at h
    cases h
    constructor
    · exact (List.take_subset _ _).trans (List.drop_subset _ _)
    · exact List.append_subset.mpr ⟨List.take_subset _ _,
        (List.drop_subset _ _).trans (List.drop_subset _ _)⟩
  · rw [if_neg hle] at h
    exact absurd h (by simp)

theorem drainChunk_length (i npt : Nat) (v batch v2 : List DependencyNode)
    (h : drainChunk i npt v = some (batch, v2)) :
    v2.length ≤ v.length := by
  unfold drainChunk at h
  by_cases hle : i * npt ≤ v.length
  · rw [if_pos hle] at h
    cases h
    simp only [List.length_append, List.length_take, List.length_drop]
    omega
  · rw [if_neg hle] at h
    exact absurd h (by simp)

theorem leafThreads_trace_props (env : AnalyzerEnv) (npt : Nat) :
    ∀ (order : List Nat) (v : List DependencyNode),
      (leafThreads env npt order v).trace.all (fun e => !isPatchEvent e) = true ∧
      (∀ seen, enqueueAfterAnalyseGuard seen (leafThreads env npt order v).trace = true) ∧
      (∀ p, enqCount (leafThreads env npt order v).trace p = 0) ∧
      (∀ d dv, TraceEvent.enqueue d dv ∉ (leafThreads env npt order v).trace) ∧
      (∀ nm v2, TraceEvent.processNode nm v2 ∉ (leafThreads env npt order v).trace) := by
  intro order
  induction order with
  | nil =>
    intro v
    refine ⟨rfl, fun seen => rfl, fun p => rfl, fun d dv h => ?_, fun nm v2 h => ?_⟩ <;>
      simp [leafThreads] at h
  | cons i rest ih =>
    intro v
    rcases hd : drainChunk i npt v with _ | ⟨batch, v2⟩
    · simp only [leafThreads, hd]
      refine ⟨rfl, fun seen => rfl, fun p => rfl, fun d dv h => ?_, fun nm v2 h => ?_⟩ <;>
        simp at h
    · have hb := processBatch_trace_props env batch
      have ihv := ih v2
      simp only [leafThreads, hd]
      refine ⟨?_, fun seen => ?_, fun p => ?_, fun d dv h => ?_, fun nm v2' h => ?_⟩
      · rw [List.all_append, hb.1, ihv.1]
        rfl
      · rw [guard_append, hb.2.1 seen, ihv.2.1 _]
        rfl
      · have h1 := hb.2.2.1 p
        have h2 := ihv.2.2.1 p
        simp only [enqCount, List.countP_append] at *
        omega
      · rcases List.mem_append.mp h with h | h
        · exact hb.2.2.2.2 d dv h
        · exact ihv.2.2.2.1 d dv h
      · rcases List.mem_append.mp h with h | h
        · exact processBatch_no_process env batch nm v2' h
        · exact ihv.2.2.2.2 nm v2' h

theorem leafThreads_files_sound (env : AnalyzerEnv) (npt : Nat) :
    ∀ (order : List Nat) (v : List DependencyNode) (nm v2 c : Str),
      (nm, v2, c) ∈ (leafThreads env npt order v).files →
      ∃ nd ∈ v, nd.name = nm ∧ nd.version = v2 ∧ env.checkCall nm v2 = some c := by
  intro order
  induction order with
  | nil => intro v nm v2 c h; simp [leafThreads] at h
  | cons i rest ih =>
    intro v nm v2 c h
    rcases hd : drainChunk i npt v with _ | ⟨batch, w⟩
    · simp only [leafThreads, hd] at h
      simp at h
    · simp only [leafThreads, hd] at h
      rcases List.mem_append.mp h with h | h
      · rw [processBatch_files_eq] at h
        rcases List.mem_filterMap.mp h with ⟨nd, hnd, hf⟩
        rcases hcc : env.checkCall nd.name nd.version with _ | c2 <;> rw [hcc] at hf
        · simp at hf
        · have hx : nd.name = nm ∧ nd.version = v2 ∧ c2 = c := by
            refine ⟨?_, ?_, ?_⟩ <;> cases hf <;> rfl
          rcases hx with ⟨h1, h2, h3⟩
          refine ⟨nd, (drainChunk_subset i npt v batch w hd).1 hnd, h1, h2, ?_⟩
          rw [← h1, ← h2, hcc, h3]
      · rcases ih w nm v2 c h with ⟨nd, hnd, hrest⟩
        exact ⟨nd, (drainChunk_subset i npt v batch w hd).2 hnd, hrest⟩

theorem leafThreads_analyses_sound (env : AnalyzerEnv) (npt : Nat) :
    ∀ (order : List Nat) (v : List DependencyNode) (nm v2 : Str),
      (nm, v2) ∈ analysesOf (leafThreads env npt order v).trace →
      ∃ nd ∈ v, nd.name = nm ∧ nd.version = v2 := by
  intro order
  induction order with
  | nil => intro v nm v2 h; simp [leafThreads, analysesOf] at h
  | cons i rest ih =>
    intro v nm v2 h
    rcases hd : drainChunk i npt v with _ | ⟨batch, w⟩
    · simp only [leafThreads, hd] at h
      simp [analysesOf] at h
    · simp only [leafThreads, hd, analysesOf, List.filterMap_append] at h
      rcases List.mem_append.mp h with h | h
      · have hmap : (nm, v2) ∈ batch.map (fun nd => (nd.name, nd.version)) := by
          rw [← (processBatch_trace_props env batch).2.2.2.1]
          exact h
        rcases List.mem_map.mp hmap with ⟨nd, hnd, heq⟩
        refine ⟨nd, (drainChunk_subset i npt v batch w hd).1 hnd, ?_, ?_⟩
        · exact congrArg Prod.fst heq
        · exact congrArg Prod.snd heq
      · rcases ih w nm v2 h with ⟨nd, hnd, hrest⟩
        exact ⟨nd, (drainChunk_subset i npt v batch w hd).2 hnd, hrest⟩

theorem leafThreads_nil (env : AnalyzerEnv) (npt : Nat) :
    ∀ (order : List Nat),
      (leafThreads env npt order []).files = [] ∧
      (leafThreads env npt order []).trace = [] := by
  intro order
  induction order with
  | nil => exact ⟨rfl, rfl⟩
  | cons i rest ih =>
    by_cases hle : i * npt ≤ ([] : List DependencyNode).length
    · have hd : drainChunk i npt ([] : List DependencyNode) = some ([], []) := by
        unfold drainChunk
        rw [if_pos hle]
        simp
      constructor
      · simp only [leafThreads, hd, processBatch, List.nil_append]
        exact ih.1
      · simp only [leafThreads, hd, processBatch, List.nil_append]
        exact ih.2
    · have hd : drainChunk i npt ([] : List DependencyNode) = none := by
        unfold drainChunk
        rw [if_neg hle]
      exact ⟨by simp only [leafThreads, hd], by simp only [leafThreads, hd]⟩

theorem leafThreads_small_crash (env : AnalyzerEnv) :
    ∀ (order : List Nat) (v : List DependencyNode),
      v.length ≤ 1 → (∃ i ∈ order, 2 ≤ i) →
      (leafThreads env 1 order v).panicked = true := by
  intro order
  induction order with
  | nil => intro v _ hex; simp at hex
  | cons i rest ih =>
    intro v hlen hex
    by_cases hi : 2 ≤ i
    · have hd : drainChunk i 1 v = none := by
        unfold drainChunk
        rw [if_neg (by omega)]
      simp only [leafThreads, hd]
    · rcases hd : drainChunk i 1 v with _ | ⟨batch, w⟩
      · simp only [leafThreads, hd]
      · have hw : w.length ≤ 1 :=
          le_trans (drainChunk_length i 1 v batch w hd) hlen
        have hex2 : ∃ j ∈ rest, 2 ≤ j := by
          rcases hex with ⟨j, hj, h2j⟩
          rcases List.mem_cons.mp hj with rfl | hj2
          · exact absurd h2j hi
          · exact ⟨j, hj2, h2j⟩
        simp only [leafThreads, hd]
        exact ih w hw hex2

theorem stage_trace_props (env : AnalyzerEnv) (order : List Nat)
    (nds : List DependencyNode) :
    (process_leaf_nodes_parallel env order nds).trace.all
        (fun e => !isPatchEvent e) = true ∧
    (∀ seen, enqueueAfterAnalyseGuard seen
        (process_leaf_nodes_parallel env order nds).trace = true) ∧
    (∀ p, enqCount (process_leaf_nodes_parallel env order nds).trace p = 0) ∧
    (∀ d dv, TraceEvent.enqueue d dv
        ∉ (process_leaf_nodes_parallel env order nds).trace) ∧
    (∀ nm v2, TraceEvent.processNode nm v2
        ∉ (process_leaf_nodes_parallel env order nds).trace) :=
  leafThreads_trace_props env _ order nds

theorem stage_files_sound (env : AnalyzerEnv) (order : List Nat)
    (nds : List DependencyNode) (nm v2 c : Str)
    (h : (nm, v2, c) ∈ (process_leaf_nodes_parallel env order nds).files) :
    ∃ nd ∈ nds, nd.name = nm ∧ nd.version = v2 ∧ env.checkCall nm v2 = some c :=
  leafThreads_files_sound env _ order nds nm v2 c h

theorem stage_analyses_sound (env : AnalyzerEnv) (order : List Nat)
    (nds : List DependencyNode) (nm v2 : Str)
    (h : (nm, v2) ∈ analysesOf (process_leaf_nodes_parallel env order nds).trace) :
    ∃ nd ∈ nds, nd.name = nm ∧ nd.version = v2 :=
  leafThreads_analyses_sound env _ order nds nm v2 h

theorem bfsStep_no_patch (env : AnalyzerEnv) (s : BfsState)
    (h : s.trace.all (fun e => !isPatchEvent e) = true) :
    (bfsStep env s).trace.all (fun e => !isPatchEvent e) = true := by
  rcases hq : s.queue with _ | ⟨⟨cn, cv⟩, rest⟩
  · simpa [bfsStep, hq] using h
  · simp only [bfsStep, hq, List.all_append, List.all_cons]
    rw [h, scanDependents_no_patch env cv _ s.visited]
    simp [isPatchEvent]

theorem bfsStep_guard (env : AnalyzerEnv) (s : BfsState)
    (h : ∀ seen, enqueueAfterAnalyseGuard seen s.trace = true) :
    ∀ seen, enqueueAfterAnalyseGuard seen (bfsStep env s).trace = true := by
  intro seen
  rcases hq : s.queue with _ | ⟨⟨cn, cv⟩, rest⟩
  · simpa [bfsStep, hq] using h seen
  · simp only [bfsStep, hq]
    rw [guard_append, h seen]
    simp only [Bool.true_and, enqueueAfterAnalyseGuard]
    exact scanDependents_guard env cv _ s.visited _

/-- The node marker most recently seen in a trace: `lastProc cur tr`
is the `(name, version)` of the last `processNode` event of `tr`, or
`cur` when `tr` has none.  An event the BFS loop appends right after
the trace `tr` belongs to the scan of exactly this node — the node
currently being analysed. -/
def lastProc : Option (Str × Str) → List TraceEvent → Option (Str × Str)
  | cur, [] => cur
  | _, TraceEvent.processNode nm vr :: tr => lastProc (some (nm, vr)) tr
  | cur, _ :: tr => lastProc cur tr

/-- The dependent `(d, dv)` is justified **relative to the node
`(pn, pvs)` being processed**: `(d, dv, req)` is one of `pn`'s queried
reverse-dependency records, the processed node's version string `pvs`
parses to `pv`, the record's requirement parses to `r`, `r` matches the
exact version `pv` under the comparator semantics, and the call
analysis of the dependent was positive. -/
def enqueueJustifiedAt (env : AnalyzerEnv) (pn pvs d dv : Str) : Prop :=
  ∃ req pv r, (d, dv, req) ∈ env.queryDependents pn ∧
    env.parseVersion pvs = some pv ∧ env.parseReq req = some r ∧
    env.reqMatches r pv = true ∧ (env.checkCall d dv).isSome = true

/-- Decidable check that the enqueue of `(d, dv)` is justified relative
to the node `cur` currently under scan (`false` when no node is). -/
def enqueueOkAt (env : AnalyzerEnv) (cur : Option (Str × Str)) (d dv : Str) : Bool :=
  match cur with
  | none => false
  | some (pn, pvs) =>
    (env.queryDependents pn).any fun rc =>
      decide (rc.1 = d) && decide (rc.2.1 = dv) &&
      (match env.parseVersion pvs, env.parseReq rc.2.2 with
       | some pv, some r => env.reqMatches r pv
       | _, _ => false) &&
      (env.checkCall d dv).isSome

/-- Scanning a trace left to right while tracking the node currently
being processed: every `enqueue` must be justified relative to the most
recent `processNode` marker. -/
def boundGuard (env : AnalyzerEnv) : Option (Str × Str) → List TraceEvent → Bool
  | _, [] => true
  | _, TraceEvent.processNode nm vr :: tr => boundGuard env (some (nm, vr)) tr
  | cur, TraceEvent.enqueue d dv :: tr =>
    enqueueOkAt env cur d dv && boundGuard env cur tr
  | cur, _ :: tr => boundGuard env cur tr

theorem boundGuard_append (env : AnalyzerEnv) :
    ∀ (t1 t2 : List TraceEvent) (cur : Option (Str × Str)),
      boundGuard env cur (t1 ++ t2)
        = (boundGuard env cur t1 && boundGuard env (lastProc cur t1) t2) := by
  intro t1
  induction t1 with
  | nil => intro t2 cur; simp [boundGuard, lastProc]
  | cons e tr ih =>
    intro t2 cur
    cases e with
    | processNode nm vr =>
      simp only [List.cons_append, boundGuard, lastProc]
      exact ih t2 (some (nm, vr))
    | analyse nm vr pos =>
      simp only [List.cons_append, boundGuard, lastProc]
      exact ih t2 cur
    | enqueue nm vr =>
      simp only [List.cons_append, boundGuard, lastProc]
      rw [show tr.append t2 = tr ++ t2 from rfl, ih t2 cur, Bool.and_assoc]
    | emitFile nm vr c =>
      simp only [List.cons_append, boundGuard, lastProc]
      exact ih t2 cur
    | patchManifest nm vr =>
      simp only [List.cons_append, boundGuard, lastProc]
      exact ih t2 cur

theorem boundGuard_split (env : AnalyzerEnv) (cur : Option (Str × Str))
    (t1 t2 : List TraceEvent) (d dv : Str)
    (h : boundGuard env cur (t1 ++ TraceEvent.enqueue d dv :: t2) = true) :
    enqueueOkAt env (lastProc cur t1) d dv = true := by
  rw [boundGuard_append] at h
  have hsplit : boundGuard env cur t1 = true ∧
      boundGuard env (lastProc cur t1) (TraceEvent.enqueue d dv :: t2) = true := by
    simpa using h
  have h2 := hsplit.2
  simp only [boundGuard] at h2
  have h3 : enqueueOkAt env (lastProc cur t1) d dv = true ∧
      boundGuard env (lastProc cur t1) t2 = true := by
    simpa using h2
  exact h3.1

theorem enqueueOkAt_sound (env : AnalyzerEnv) (cur : Option (Str × Str))
    (d dv : Str) (h : enqueueOkAt env cur d dv = true) :
    ∃ pn pvs, cur = some (pn, pvs) ∧ enqueueJustifiedAt env pn pvs d dv := by
  rcases cur with _ | ⟨pn, pvs⟩
  · simp [enqueueOkAt] at h
  · refine ⟨pn, pvs, rfl, ?_⟩
    have h0 : ((env.queryDependents pn).any fun rc =>
        decide (rc.1 = d) && decide (rc.2.1 = dv) &&
        (match env.parseVersion pvs, env.parseReq rc.2.2 with
         | some pv, some r => env.reqMatches r pv
         | _, _ => false) &&
        (env.checkCall d dv).isSome) = true := h
    rcases List.any_eq_true.mp h0 with ⟨rc, hrc, hp⟩
    rcases rc with ⟨rn, rv, req⟩
    simp only [Bool.and_eq_true, decide_eq_true_eq] at hp
    rcases hp with ⟨⟨⟨h1, h2⟩, h3⟩, h4⟩
    rcases hpv : env.parseVersion pvs with _ | pv <;> rw [hpv] at h3
    · simp at h3
    · rcases hr : env.parseReq req with _ | r <;> rw [hr] at h3
      · simp at h3
      · subst h1
        subst h2
        exact ⟨req, pv, r, hrc, hpv, hr, h3, h4⟩

theorem boundGuard_of_no_enqueue (env : AnalyzerEnv) :
    ∀ (tr : List TraceEvent), (∀ d dv, TraceEvent.enqueue d dv ∉ tr) →
      ∀ cur, boundGuard env cur tr = true := by
  intro tr
  induction tr with
  | nil => intro _ cur; rfl
  | cons e rest ih =>
    intro h cur
    have hrest : ∀ d dv, TraceEvent.enqueue d dv ∉ rest := by
      intro d dv hmem
      exact h d dv (List.mem_cons_of_mem _ hmem)
    cases e with
    | processNode nm vr => simpa [boundGuard] using ih hrest (some (nm, vr))
    | analyse nm vr pos => simpa [boundGuard] using ih hrest cur
    | enqueue nm vr => exact absurd (List.mem_cons_self _ _) (h nm vr)
    | emitFile nm vr c => simpa [boundGuard] using ih hrest cur
    | patchManifest nm vr => simpa [boundGuard] using ih hrest cur

theorem scanDependents_boundGuard (env : AnalyzerEnv) (cn cv : Str) :
    ∀ (deps : List (Str × Str × Str)) (visited : List (Str × Str)),
      deps ⊆ env.queryDependents cn →
      boundGuard env (some (cn, cv))
        (scanDependents env cv visited deps).events = true := by
  intro deps
  induction deps with
  | nil => intro visited _; rfl
  | cons rc rest ih =>
    intro visited hsub
    rcases rc with ⟨dn, dv, req⟩
    have hhead : (dn, dv, req) ∈ env.queryDependents cn :=
      hsub (List.mem_cons_self _ _)
    have hrest : rest ⊆ env.queryDependents cn :=
      fun x hx => hsub (List.mem_cons_of_mem _ hx)
    simp only [scanDependents]
    rcases hpv : env.parseVersion cv with _ | pv <;>
      rcases hr : env.parseReq req with _ | r <;>
      simp only [hpv, hr]
    · exact ih visited hrest
    · exact ih visited hrest
    · exact ih visited hrest
    · by_cases hm : env.reqMatches r pv = true
      · rw [if_pos hm]
        rcases hc : env.checkCall dn dv with _ | c <;> simp only [hc]
        · simpa [boundGuard] using ih visited hrest
        · by_cases hv : (dn, dv) ∈ visited
          · rw [if_pos hv]
            simpa [boundGuard] using ih visited hrest
          · rw [if_neg hv]
            have hok : enqueueOkAt env (some (cn, cv)) dn dv = true := by
              simp only [enqueueOkAt]
              refine List.any_eq_true.mpr ⟨(dn, dv, req), hhead, ?_⟩
              simp [hpv, hr, hm, hc]
            have hrec := ih ((dn, dv) :: visited) hrest
            simp only [List.cons_append, List.nil_append, List.append_eq, boundGuard]
            rw [hok, hrec]
            rfl
      · rw [if_neg hm]
        exact ih visited hrest

theorem bfsStep_boundGuard (env : AnalyzerEnv) (s : BfsState)
    (h : ∀ cur, boundGuard env cur s.trace = true) :
    ∀ cur, boundGuard env cur (bfsStep env s).trace = true := by
  intro cur
  rcases hq : s.queue with _ | ⟨⟨cn, cv⟩, rest⟩
  · simpa [bfsStep, hq] using h cur
  · simp only [bfsStep, hq]
    rw [boundGuard_append, h cur]
    simp only [Bool.true_and, boundGuard]
    exact scanDependents_boundGuard env cn cv _ s.visited (fun x hx => hx)

theorem run_boundGuard (env : AnalyzerEnv) (startCrate versionRange : Str)
    (fuel : Nat) (order : List Nat) :
    boundGuard env none
      (find_all_dependents env startCrate versionRange fuel order).trace = true := by
  rcases hpr : env.parseReq versionRange with _ | vr0
  · simp [find_all_dependents, hpr]
    rfl
  · simp only [find_all_dependents, hpr]
    have hrun := bfsRun_inv env (fun s => ∀ cur, boundGuard env cur s.trace = true)
      (fun s hs => bfsStep_boundGuard env s hs)
      fuel ⟨seedQueue env startCrate versionRange, [], [], []⟩ (fun cur => rfl)
    rw [boundGuard_append, hrun none,
      boundGuard_of_no_enqueue env _ (stage_trace_props env order _).2.2.2.1 _]
    rfl

theorem bfsStep_enqCount (env : AnalyzerEnv) (s : BfsState)
    (h : ∀ p, enqCount s.trace p ≤ 1 ∧
      (1 ≤ enqCount s.trace p → p ∈ s.visited) ∧
      (p ∉ s.visited → enqCount s.trace p = 0)) :
    ∀ p, enqCount (bfsStep env s).trace p ≤ 1 ∧
      (1 ≤ enqCount (bfsStep env s).trace p → p ∈ (bfsStep env s).visited) ∧
      (p ∉ (bfsStep env s).visited → enqCount (bfsStep env s).trace p = 0) := by
  intro p
  rcases hq : s.queue with _ | ⟨⟨cn, cv⟩, rest⟩
  · rw [show bfsStep env s = s by simp [bfsStep, hq]]
    exact h p
  · have hsc := scanDependents_enqCount env cv (env.queryDependents cn) s.visited p
    have hmono := scanDependents_visited_mono env cv (env.queryDependents cn) s.visited
    have hsplit : enqCount (bfsStep env s).trace p
        = enqCount s.trace p
          + enqCount (scanDependents env cv s.visited (env.queryDependents cn)).events p := by
      simp [bfsStep, hq, enqCount, List.countP_append, List.countP_cons]
    have hvis : (bfsStep env s).visited
        = (scanDependents env cv s.visited (env.queryDependents cn)).visited := by
      simp [bfsStep, hq]
    rw [hsplit, hvis]
    by_cases hp : p ∈ s.visited
    · have h0 : enqCount (scanDependents env cv s.visited
          (env.queryDependents cn)).events p = 0 := hsc.2.1 hp
      rw [h0]
      refine ⟨by simpa using (h p).1, fun _ => hmono hp, fun hnp => ?_⟩
      exact absurd (hmono hp) hnp
    · have h0 : enqCount s.trace p = 0 := (h p).2.2 hp
      rw [h0]
      refine ⟨by simpa using hsc.1, fun h1 => hsc.2.2 (by simpa using h1), fun hnp => ?_⟩
      by_cases hz : enqCount (scanDependents env cv s.visited
          (env.queryDependents cn)).events p = 0
      · simp [hz]
      · have h1 : 1 ≤ enqCount (scanDependents env cv s.visited
            (env.queryDependents cn)).events p := by omega
        exact absurd (hsc.2.2 h1) hnp

/-! ## Claims C1, C2, C5 -/

/-- A concrete traversal environment: seed crate `f` at version `1`
with a single reverse dependent `a@2` (requirement `r`) that calls the
target function; `a` has no dependents of its own.  Version and
requirement parsing succeed and every requirement matches. -/
def envA : AnalyzerEnv :=
  { queryVersions := fun nm => if nm = "f".data then ["1".data] else []
    queryDependents := fun nm =>
      if nm = "f".data then [("a".data, "2".data, "r".data)] else []
    checkCall := fun nm vr =>
      if nm = "a".data ∧ vr = "2".data then some "R".data else none
    parseVersion := fun v => some v
    parseReq := fun r => some r
    reqMatches := fun _ _ => true }

/-- C1 (counterexample): in the traversal of `envA` the dependent
`a@2` is enqueued, but the trace contains no manifest-patch event at
all — `find_all_dependents` never calls the patch helpers of
`krate.rs` — so "a dependent is enqueued only after its manifest has
been successfully patched" fails, and with it the retry-once policy. -/
theorem C1_counterexample :
    TraceEvent.enqueue "a".data "2".data
      ∈ (find_all_dependents envA "f".data "q".data 2 fullOrder).trace ∧
    enqueueAfterPatchGuard []
      (find_all_dependents envA "f".data "q".data 2 fullOrder).trace = false := by
  constructor <;> decide

/-- C1 (amended): the traversal performs no manifest patching at all
(the trace never contains a patch event), and a dependent is enqueued
onto the BFS queue only after a `check_function_call` invocation on
that dependent returned a positive report. -/
theorem C1_enqueue_after_analysis (env : AnalyzerEnv)
    (startCrate versionRange : Str) (fuel : Nat) (order : List Nat) :
    (find_all_dependents env startCrate versionRange fuel order).trace.all
        (fun e => !isPatchEvent e) = true ∧
    enqueueAfterAnalyseGuard []
      (find_all_dependents env startCrate versionRange fuel order).trace = true := by
  rcases hpr : env.parseReq versionRange with _ | vr0
  · constructor <;> simp [find_all_dependents, hpr, enqueueAfterAnalyseGuard]
  · simp only [find_all_dependents, hpr]
    have hrun := bfsRun_inv env
      (fun s => s.trace.all (fun e => !isPatchEvent e) = true ∧
        ∀ seen, enqueueAfterAnalyseGuard seen s.trace = true)
      (fun s hs => ⟨bfsStep_no_patch env s hs.1, bfsStep_guard env s hs.2⟩)
      fuel ⟨seedQueue env startCrate versionRange, [], [], []⟩ ⟨rfl, fun _ => rfl⟩
    have hleaf := stage_trace_props env order
      (bfsRun env fuel ⟨seedQueue env startCrate versionRange, [], [], []⟩).leafNodes
    constructor
    · rw [List.all_append, hrun.1, hleaf.1]
      rfl
    · rw [guard_append, hrun.2 [], hleaf.2.1 _]
      rfl

/-- C2 (counterexample): in the traversal of `envA` the pair `a@2` is
submitted to `check_function_call` twice — once while scanning the
dependents of the seed `f@1` and again when `a@2` itself is processed
as a leaf node — so "no (name, version) pair is submitted to the call
analyser more than once" fails. -/
theorem C2_counterexample :
    (analysesOf (find_all_dependents envA "f".data "q".data 2 fullOrder).trace).count
      ("a".data, "2".data) = 2 := by
  decide

/-- C2 (amended): the visited set only ever grows (running the BFS
longer never removes a pair), and no package is ever *enqueued* as a
dependent more than once — yet duplicate submission to the analyser
still happens, once per scan of a matching record and once per leaf. -/
theorem C2_visited_monotone (env : AnalyzerEnv) (startCrate versionRange : Str) :
    (∀ (n m : Nat) (s : BfsState), n ≤ m →
      (bfsRun env n s).visited ⊆ (bfsRun env m s).visited) ∧
    (∀ (fuel : Nat) (order : List Nat) (p : Str × Str),
      enqCount (find_all_dependents env startCrate versionRange fuel order).trace p ≤ 1) := by
  constructor
  · intro n m s hnm
    have hm : m = n + (m - n) := by omega
    rw [hm, bfsRun_add]
    exact bfsRun_visited_mono env (m - n) _
  · intro fuel order p
    rcases hpr : env.parseReq versionRange with _ | vr0
    · simp [find_all_dependents, hpr, enqCount]
    · simp only [find_all_dependents, hpr]
      have hrun := bfsRun_inv env
        (fun s => ∀ q, enqCount s.trace q ≤ 1 ∧
          (1 ≤ enqCount s.trace q → q ∈ s.visited) ∧
          (q ∉ s.visited → enqCount s.trace q = 0))
        (fun s hs => bfsStep_enqCount env s hs)
        fuel ⟨seedQueue env startCrate versionRange, [], [], []⟩
        (fun q => ⟨by simp [enqCount], fun h => absurd h (by simp [enqCount]),
          fun _ => by simp [enqCount]⟩)
      have hleaf := (stage_trace_props env order
        (bfsRun env fuel ⟨seedQueue env startCrate versionRange, [], [], []⟩).leafNodes).2.2.1 p
      have hsplit : enqCount ((bfsRun env fuel
            ⟨seedQueue env startCrate versionRange, [], [], []⟩).trace ++
          (process_leaf_nodes_parallel env order (bfsRun env fuel
            ⟨seedQueue env startCrate versionRange, [], [], []⟩).leafNodes).trace) p
          = enqCount (bfsRun env fuel
              ⟨seedQueue env startCrate versionRange, [], [], []⟩).trace p
            + enqCount (process_leaf_nodes_parallel env order (bfsRun env fuel
              ⟨seedQueue env startCrate versionRange, [], [], []⟩).leafNodes).trace p := by
        simp [enqCount, List.countP_append]
      rw [hsplit, hleaf]
      simpa using (hrun p).1

/-- C5 (confirmed): wherever an `enqueue` of a dependent `(d, dv)`
occurs in a run's trace, the most recent `processNode` marker before
it — the node `(pn, pvs)` the BFS loop is scanning at that moment — is
present, and the enqueue is justified relative to exactly that node:
`(d, dv, req)` is one of `pn`'s reverse-dependency records, `req`
parses and matches the parsed version of `pvs` (the exact version
currently being analysed) under the `semver` comparator semantics
(modelled by the abstract `parseVersion` / `parseReq` / `reqMatches`
oracles), and the dependent's call analysis was positive. -/
theorem C5_requirement_filter (env : AnalyzerEnv)
    (startCrate versionRange : Str) (fuel : Nat) (order : List Nat)
    (t1 t2 : List TraceEvent) (d dv : Str)
    (h : (find_all_dependents env startCrate versionRange fuel order).trace
      = t1 ++ TraceEvent.enqueue d dv :: t2) :
    ∃ pn pvs, lastProc none t1 = some (pn, pvs) ∧
      enqueueJustifiedAt env pn pvs d dv := by
  have hg := run_boundGuard env startCrate versionRange fuel order
  rw [h] at hg
  exact enqueueOkAt_sound env _ d dv (boundGuard_split env none t1 t2 d dv hg)

/-- Witness for C5: in `envA` the dependent `a@2` is enqueued right
after the seed `f@1`'s `processNode` marker and one positive analyse
event, and the theorem produces the parent `f@1` with the justifying
record. -/
theorem C5_witness :
    (find_all_dependents envA "f".data "q".data 2 fullOrder).trace
      = [TraceEvent.processNode "f".data "1".data,
          TraceEvent.analyse "a".data "2".data true]
        ++ TraceEvent.enqueue "a".data "2".data ::
          [TraceEvent.processNode "a".data "2".data,
            TraceEvent.analyse "a".data "2".data true,
            TraceEvent.emitFile "a".data "2".data "R".data] ∧
    (∃ pn pvs, lastProc none
        [TraceEvent.processNode "f".data "1".data,
          TraceEvent.analyse "a".data "2".data true] = some (pn, pvs) ∧
      enqueueJustifiedAt envA pn pvs "a".data "2".data) :=
  ⟨by decide,
    C5_requirement_filter envA "f".data "q".data 2 fullOrder
      [TraceEvent.processNode "f".data "1".data,
        TraceEvent.analyse "a".data "2".data true]
      [TraceEvent.processNode "a".data "2".data,
        TraceEvent.analyse "a".data "2".data true,
        TraceEvent.emitFile "a".data "2".data "R".data]
      "a".data "2".data (by decide)⟩

/-- Witness for C2: the monotonicity half applied at a concrete run of
`envA` (one step versus two), and the enqueue-count bound at the
enqueued pair. -/
theorem C2_witness :
    (bfsRun envA 1 ⟨[("f".data, "1".data)], [], [], []⟩).visited
      ⊆ (bfsRun envA 2 ⟨[("f".data, "1".data)], [], [], []⟩).visited ∧
    enqCount (find_all_dependents envA "f".data "q".data 2 fullOrder).trace
      ("a".data, "2".data) ≤ 1 :=
  ⟨(C2_visited_monotone envA "f".data "q".data).1 1 2 _ (by omega),
    (C2_visited_monotone envA "f".data "q".data).2 2 fullOrder _⟩

/-- Is the event a `processNode` marker? -/
def isProcessEvent : TraceEvent → Bool
  | .processNode _ _ => true
  | _ => false

theorem scanDependents_no_process (env : AnalyzerEnv) (cv : Str) :
    ∀ (deps : List (Str × Str × Str)) (visited : List (Str × Str)),
      (scanDependents env cv visited deps).events.all
        (fun e => !isProcessEvent e) = true := by
  intro deps
  induction deps with
  | nil => intro visited; simp [scanDependents]
  | cons rec rest ih =>
    intro visited
    rcases rec with ⟨dn, dv, req⟩
    simp only [scanDependents]
    rcases hpv : env.parseVersion cv with _ | pv <;>
      rcases hr : env.parseReq req with _ | r <;>
      simp only [hpv, hr]
    · exact ih visited
    · exact ih visited
    · exact ih visited
    · by_cases hm : env.reqMatches r pv = true
      · rw [if_pos hm]
        rcases hc : env.checkCall dn dv with _ | c <;> simp only [hc]
        · simpa [isProcessEvent] using ih visited
        · by_cases hv : (dn, dv) ∈ visited
          · rw [if_pos hv]
            simpa [isProcessEvent] using ih visited
          · rw [if_neg hv]
            simpa [isProcessEvent] using ih ((dn, dv) :: visited)
      · rw [if_neg hm]
        exact ih visited

/-! ## Claim C10 -/

theorem bfsStep_leaf_inv (env : AnalyzerEnv) (s : BfsState)
    (h1 : ∀ nd ∈ s.leafNodes, nd.dependents = [] ∧
      validDependentExists env nd.name nd.version = false)
    (h2 : ∀ nm v2, TraceEvent.processNode nm v2 ∈ s.trace →
      validDependentExists env nm v2 = false →
      ∃ nd ∈ s.leafNodes, nd.name = nm ∧ nd.version = v2) :
    (∀ nd ∈ (bfsStep env s).leafNodes, nd.dependents = [] ∧
      validDependentExists env nd.name nd.version = false) ∧
    (∀ nm v2, TraceEvent.processNode nm v2 ∈ (bfsStep env s).trace →
      validDependentExists env nm v2 = false →
      ∃ nd ∈ (bfsStep env s).leafNodes, nd.name = nm ∧ nd.version = v2) := by
  rcases hq : s.queue with _ | ⟨⟨cn, cv⟩, rest⟩
  · rw [show bfsStep env s = s by simp [bfsStep, hq]]
    exact ⟨h1, h2⟩
  · have hval : (scanDependents env cv s.visited (env.queryDependents cn)).hasValid
        = validDependentExists env cn cv :=
      scanDependents_hasValid env cv (env.queryDependents cn) s.visited
    have hleaves : (bfsStep env s).leafNodes
        = if (scanDependents env cv s.visited (env.queryDependents cn)).hasValid
          then s.leafNodes
          else s.leafNodes ++ [⟨cn, cv,
            (scanDependents env cv s.visited (env.queryDependents cn)).recorded⟩] := by
      simp [bfsStep, hq]
    have htrace : (bfsStep env s).trace
        = s.trace ++ TraceEvent.processNode cn cv ::
            (scanDependents env cv s.visited (env.queryDependents cn)).events := by
      simp [bfsStep, hq]
    constructor
    · intro nd hnd
      rw [hleaves] at hnd
      by_cases hhv : (scanDependents env cv s.visited (env.queryDependents cn)).hasValid = true
      · rw [if_pos hhv] at hnd
        exact h1 nd hnd
      · have hhv2 : (scanDependents env cv s.visited
            (env.queryDependents cn)).hasValid = false := by
          revert hhv
          cases (scanDependents env cv s.visited (env.queryDependents cn)).hasValid <;> simp
        rw [if_neg (by simp [hhv2])] at hnd
        rcases List.mem_append.mp hnd with hnd | hnd
        · exact h1 nd hnd
        · rcases List.mem_singleton.mp hnd with rfl
          refine ⟨scanDependents_recorded_nil env cv _ s.visited hhv2, ?_⟩
          rw [← hval]
          exact hhv2
    · intro nm v2 hmem hvalid
      rw [htrace] at hmem
      have hsub : s.leafNodes ⊆ (bfsStep env s).leafNodes := by
        rw [hleaves]
        split
        · exact fun x hx => hx
        · exact fun x hx => List.mem_append_left _ hx
      rcases List.mem_append.mp hmem with hmem | hmem
      · rcases h2 nm v2 hmem hvalid with ⟨nd, hnd, hp⟩
        exact ⟨nd, hsub hnd, hp⟩
      · rcases List.mem_cons.mp hmem with hcon | hmem
        · have hnm : nm = cn := by cases hcon; rfl
          have hv2 : v2 = cv := by cases hcon; rfl
          subst hnm
          subst hv2
          have hhv2 : (scanDependents env v2 s.visited
              (env.queryDependents nm)).hasValid = false := by
            rw [hval]; exact hvalid
          refine ⟨⟨nm, v2, (scanDependents env v2 s.visited
            (env.queryDependents nm)).recorded⟩, ?_, rfl, rfl⟩
          rw [hleaves, if_neg (by simp [hhv2])]
          exact List.mem_append_right _ (List.mem_singleton.mpr rfl)
        · exfalso
          have hall := scanDependents_no_process env cv (env.queryDependents cn) s.visited
          have := List.all_eq_true.mp hall _ hmem
          simp [isProcessEvent] at this

/-- C10 (confirmed): every node returned by `find_all_dependents` has
an empty dependents vector; a node popped from the BFS queue ends up in
the returned list iff none of its reverse-dependency records both
matched the analysed version and was found to call the target; and
exactly the returned leaf nodes are handed to the parallel leaf stage:
the run's result files are those of `process_leaf_nodes_parallel`
applied to the returned list, and every pair the leaf stage analyses is
the `(name, version)` of a handed leaf (the stage's chunked `drain`
never analyses anything outside the handed list, whichever thread
schedule occurs). -/
theorem C10_leaf_nodes (env : AnalyzerEnv) (startCrate versionRange : Str)
    (fuel : Nat) (order : List Nat) :
    (∀ nd ∈ (find_all_dependents env startCrate versionRange fuel order).leaves,
      nd.dependents = [] ∧ validDependentExists env nd.name nd.version = false) ∧
    (∀ nm v2, TraceEvent.processNode nm v2
        ∈ (find_all_dependents env startCrate versionRange fuel order).trace →
      (validDependentExists env nm v2 = false ↔
        ∃ nd ∈ (find_all_dependents env startCrate versionRange fuel order).leaves,
          nd.name = nm ∧ nd.version = v2)) ∧
    (find_all_dependents env startCrate versionRange fuel order).files
      = (process_leaf_nodes_parallel env order
          (find_all_dependents env startCrate versionRange fuel order).leaves).files ∧
    (∀ nm v2, (nm, v2) ∈ analysesOf (process_leaf_nodes_parallel env order
        (find_all_dependents env startCrate versionRange fuel order).leaves).trace →
      ∃ nd ∈ (find_all_dependents env startCrate versionRange fuel order).leaves,
        nd.name = nm ∧ nd.version = v2) := by
  rcases hpr : env.parseReq versionRange with _ | vr0
  · refine ⟨?_, ?_, ?_, ?_⟩
    · simp [find_all_dependents, hpr]
    · simp [find_all_dependents, hpr]
    · simp only [find_all_dependents, hpr]
      exact ((leafThreads_nil env _ _).1).symm
    · simp only [find_all_dependents, hpr]
      intro nm v2 hmem
      rw [show (process_leaf_nodes_parallel env order
          ([] : List DependencyNode)).trace = [] from (leafThreads_nil env _ _).2] at hmem
      simp [analysesOf] at hmem
  · have hrun := bfsRun_inv env
      (fun s => (∀ nd ∈ s.leafNodes, nd.dependents = [] ∧
          validDependentExists env nd.name nd.version = false) ∧
        (∀ nm v2, TraceEvent.processNode nm v2 ∈ s.trace →
          validDependentExists env nm v2 = false →
          ∃ nd ∈ s.leafNodes, nd.name = nm ∧ nd.version = v2))
      (fun s hs => bfsStep_leaf_inv env s hs.1 hs.2)
      fuel ⟨seedQueue env startCrate versionRange, [], [], []⟩
      ⟨fun nd hnd => absurd hnd (by simp), fun nm v2 hmem => absurd hmem (by simp)⟩
    simp only [find_all_dependents, hpr]
    refine ⟨hrun.1, ?_, ?_, fun nm v2 hmem => stage_analyses_sound env order _ nm v2 hmem⟩
    · intro nm v2 hmem
      rcases List.mem_append.mp hmem with hmem | hmem
      · constructor
        · intro hvalid
          exact hrun.2 nm v2 hmem hvalid
        · rintro ⟨nd, hnd, hn, hv⟩
          have := (hrun.1 nd hnd).2
          rw [hn, hv] at this
          exact this
      · exact absurd hmem ((stage_trace_props env order _).2.2.2.2 nm v2)
    · trivial

/-- Witness for C10: in the run of `envA` the dependent `a@2` is
processed and, having no matching calling dependents of its own, the
characterisation places it in the returned leaf list. -/
theorem C10_witness :
    TraceEvent.processNode "a".data "2".data
        ∈ (find_all_dependents envA "f".data "q".data 2 fullOrder).trace ∧
    (validDependentExists envA "a".data "2".data = false ↔
      ∃ nd ∈ (find_all_dependents envA "f".data "q".data 2 fullOrder).leaves,
        nd.name = "a".data ∧ nd.version = "2".data) :=
  ⟨by decide,
    (C10_leaf_nodes envA "f".data "q".data 2 fullOrder).2.1 "a".data "2".data (by decide)⟩

/-! ## Claim C3 -/

/-- A concrete two-hop environment: seed `f@1`; dependent `a@2` calls
the target and itself has dependent `b@3`, which also calls it; `b`
has no dependents. -/
def envB : AnalyzerEnv :=
  { queryVersions := fun nm => if nm = "f".data then ["1".data] else []
    queryDependents := fun nm =>
      if nm = "f".data then [("a".data, "2".data, "r".data)]
      else if nm = "a".data then [("b".data, "3".data, "s".data)] else []
    checkCall := fun nm vr =>
      if nm = "a".data ∧ vr = "2".data then some "RA".data
      else if nm = "b".data ∧ vr = "3".data then some "RB".data else none
    parseVersion := fun v => some v
    parseReq := fun r => some r
    reqMatches := fun _ _ => true }

/-- C3 (counterexample): in the run of `envB` (first-thread-first
schedule) the analysis of `a@2` returned a positive report (a `Calls`
result), yet the only file written is `b-3-callers.json` — interior
nodes of the traversal get no result file — so the file set is **not**
the set of PkgIds for which the analysis reported
`total_callers > 0`. -/
theorem C3_counterexample :
    TraceEvent.analyse "a".data "2".data true
        ∈ (find_all_dependents envB "f".data "q".data 3 fullOrder).trace ∧
    (find_all_dependents envB "f".data "q".data 3 fullOrder).files
      = [("b".data, "3".data, "RB".data)] := by
  constructor <;> decide

/-- C3 (amended): the containment half of the claim holds — every
result file written under `target/` belongs to a returned leaf node,
carries exactly that leaf's positive `check_function_call` report, and
this is so under every thread schedule of the leaf stage.  The converse
fails twice over: interior nodes whose analysis returned `Calls` get no
file (the counterexample), and the leaf stage's chunked `drain` can
skip leaves or panic, so not even every positive leaf is guaranteed a
file. -/
theorem C3_result_files (env : AnalyzerEnv) (startCrate versionRange : Str)
    (fuel : Nat) (order : List Nat) (nm v2 c : Str)
    (h : (nm, v2, c)
      ∈ (find_all_dependents env startCrate versionRange fuel order).files) :
    (∃ nd ∈ (find_all_dependents env startCrate versionRange fuel order).leaves,
      nd.name = nm ∧ nd.version = v2) ∧ env.checkCall nm v2 = some c := by
  rcases hpr : env.parseReq versionRange with _ | vr0
  · simp [find_all_dependents, hpr] at h
  · simp only [find_all_dependents, hpr] at h ⊢
    rcases stage_files_sound env order _ nm v2 c h with ⟨nd, hnd, h1, h2, h3⟩
    exact ⟨⟨nd, hnd, h1, h2⟩, h3⟩

/-- Witness for C3: the soundness direction applied to the file
`b-3-callers.json` of the `envB` run. -/
theorem C3_witness :
    ("b".data, "3".data, "RB".data)
        ∈ (find_all_dependents envB "f".data "q".data 3 fullOrder).files ∧
    ((∃ nd ∈ (find_all_dependents envB "f".data "q".data 3 fullOrder).leaves,
        nd.name = "b".data ∧ nd.version = "3".data) ∧
      envB.checkCall "b".data "3".data = some "RB".data) :=
  ⟨by decide,
    C3_result_files envB "f".data "q".data 3 fullOrder "b".data "3".data "RB".data
      (by decide)⟩

/-! ## Claim C9 -/

/-- A concrete one-seed environment: `f@1` is the only version, there
are no reverse dependents anywhere, and `f@1`'s own sources call the
target function. -/
def envC : AnalyzerEnv :=
  { queryVersions := fun nm => if nm = "f".data then ["1".data] else []
    queryDependents := fun _ => []
    checkCall := fun nm vr =>
      if nm = "f".data ∧ vr = "1".data then some "RF".data else none
    parseVersion := fun v => some v
    parseReq := fun r => some r
    reqMatches := fun _ _ => true }

/-- C9 (counterexample): for the run of `envC` — exactly one matching
seed version and no reverse dependents — the visited set ends empty
and the queue empties after one iteration as claimed, but the seed
**is** itself analysed (as a leaf): under the first-thread-first
schedule a result file **is** emitted for it, refuting "seeds are never
themselves analysed" and "no result file is emitted"; under the
reversed schedule no file is emitted; and under both schedules the leaf
stage panics, so the source function never returns normally. -/
theorem C9_counterexample :
    seedQueue envC "f".data "q".data = [("f".data, "1".data)] ∧
    envC.queryDependents "f".data = [] ∧
    (find_all_dependents envC "f".data "q".data 1 fullOrder).finalState.visited = [] ∧
    (bfsStep envC ⟨seedQueue envC "f".data "q".data, [], [], []⟩).queue = [] ∧
    TraceEvent.analyse "f".data "1".data true
      ∈ (find_all_dependents envC "f".data "q".data 1 fullOrder).trace ∧
    (find_all_dependents envC "f".data "q".data 1 fullOrder).files
      = [("f".data, "1".data, "RF".data)] ∧
    (find_all_dependents envC "f".data "q".data 1 revOrder).files = [] ∧
    (find_all_dependents envC "f".data "q".data 1 fullOrder).panicked = true ∧
    (find_all_dependents envC "f".data "q".data 1 revOrder).panicked = true := by
  refine ⟨?_, ?_, ?_, ?_, ?_, ?_, ?_, ?_, ?_⟩ <;> decide

/-- C9 (amended): for every run whose seed frontier contains exactly
one matching version and whose seed has no reverse dependents: the
visited set ends empty and the queue empties after one iteration, but
the seed becomes the single leaf node and is handed to the leaf
analysis.  There, 32 threads chunk the one-element vector: under every
schedule in which some thread with id ≥ 2 takes the lock (every full
schedule of the pool has one), a `drain` panics, so the traversal
never returns normally; and whether the seed's result file is written
first is schedule-dependent — when thread 0 locks first, the file is
emitted exactly when the seed's own call analysis reports callers. -/
theorem C9_seed_run (env : AnalyzerEnv) (startCrate versionRange v pv r0 : Str)
    (fuel : Nat) (order : List Nat)
    (hpr : env.parseReq versionRange = some r0)
    (hv : env.queryVersions startCrate = [v])
    (hpv : env.parseVersion v = some pv)
    (hm : env.reqMatches r0 pv = true)
    (hdeps : env.queryDependents startCrate = []) :
    seedQueue env startCrate versionRange = [(startCrate, v)] ∧
    (bfsStep env ⟨seedQueue env startCrate versionRange, [], [], []⟩).queue = [] ∧
    (find_all_dependents env startCrate versionRange (fuel + 1) order).finalState.visited
      = [] ∧
    (find_all_dependents env startCrate versionRange (fuel + 1) order).leaves
      = [⟨startCrate, v, []⟩] ∧
    ((∃ i ∈ order, 2 ≤ i) →
      (find_all_dependents env startCrate versionRange (fuel + 1) order).panicked
        = true) ∧
    (order.head? = some 0 →
      (find_all_dependents env startCrate versionRange (fuel + 1) order).files
        = (match env.checkCall startCrate v with
            | some c => [(startCrate, v, c)]
            | none => [])) := by
  have hseed : seedQueue env startCrate versionRange = [(startCrate, v)] := by
    simp [seedQueue, hpr, hv, hpv, hm]
  have hstep : bfsStep env ⟨[(startCrate, v)], [], [], []⟩
      = ⟨[], [], [⟨startCrate, v, []⟩],
          [TraceEvent.processNode startCrate v]⟩ := by
    simp [bfsStep, hdeps, scanDependents]
  have hrun : bfsRun env (fuel + 1) ⟨seedQueue env startCrate versionRange, [], [], []⟩
      = ⟨[], [], [⟨startCrate, v, []⟩], [TraceEvent.processNode startCrate v]⟩ := by
    rw [hseed]
    have h1 : bfsRun env (fuel + 1) ⟨[(startCrate, v)], [], [], []⟩
        = bfsRun env fuel (bfsStep env ⟨[(startCrate, v)], [], [], []⟩) := by
      simp only [bfsRun]
    rw [h1, hstep, bfsRun_empty env fuel _ rfl]
  have hfold : process_leaf_nodes_parallel env order
      [(⟨startCrate, v, []⟩ : DependencyNode)]
      = leafThreads env 1 order [⟨startCrate, v, []⟩] := by
    unfold process_leaf_nodes_parallel
    norm_num [numThreads]
  refine ⟨hseed, by rw [hseed, hstep], ?_, ?_, ?_, ?_⟩
  · simp only [find_all_dependents, hpr, hrun]
  · simp only [find_all_dependents, hpr, hrun]
  · intro hex
    simp only [find_all_dependents, hpr, hrun]
    rw [hfold]
    exact leafThreads_small_crash env order _ (by simp) hex
  · intro hhead
    rcases order with _ | ⟨i, rest⟩
    · simp at hhead
    · have hi : i = 0 := by simpa using hhead
      subst hi
      simp only [find_all_dependents, hpr, hrun]
      rw [hfold]
      have hd : drainChunk 0 1 [(⟨startCrate, v, []⟩ : DependencyNode)]
          = some ([⟨startCrate, v, []⟩], []) := by
        unfold drainChunk
        simp
      simp only [leafThreads, hd, processBatch, process_leaf_node]
      rw [(leafThreads_nil env 1 rest).1]
      rcases hc : env.checkCall startCrate v with _ | c <;> simp [hc]

/-- Witness for C9: the seed-run theorem applied to `envC` with the
first-thread-first schedule — the seed's file is emitted and the stage
panics. -/
theorem C9_witness :
    seedQueue envC "f".data "q".data = [("f".data, "1".data)] ∧
    (bfsStep envC ⟨seedQueue envC "f".data "q".data, [], [], []⟩).queue = [] ∧
    (find_all_dependents envC "f".data "q".data 1 fullOrder).finalState.visited = [] ∧
    (find_all_dependents envC "f".data "q".data 1 fullOrder).leaves
      = [⟨"f".data, "1".data, []⟩] ∧
    (find_all_dependents envC "f".data "q".data 1 fullOrder).panicked = true ∧
    (find_all_dependents envC "f".data "q".data 1 fullOrder).files
      = [("f".data, "1".data, "RF".data)] := by
  have h := C9_seed_run envC "f".data "q".data "1".data "1".data "q".data 0 fullOrder
    rfl rfl rfl rfl rfl
  refine ⟨h.1, h.2.1, h.2.2.1, h.2.2.2.1, h.2.2.2.2.1 (by decide), ?_⟩
  rw [h.2.2.2.2.2 (by decide)]
  decide
